import Mathlib

/-!
Verification of the tar archive builder/extractor of the slicer SDK
(`StreamTarArchive`, `ExtractTarStream`, `ValidRelPath`, `ExtractTarToPath`).

The Go code is shallowly embedded:
* Go strings are `List Char` (`GoStr`); the platform is Unix, so
  `filepath.Separator = '/'` and `filepath.FromSlash`/`ToSlash` are the
  identity.
* The lexical path functions `filepath.Clean`, `Join`, `Abs`, `Dir`,
  `Base` are implemented by their documented component algorithms
  (`goClean`, `goJoin`, `goAbs`, `goDir`, `goBase`).
* The filesystem is a finite association list from canonical absolute
  paths (component lists) to nodes; every OS call of the source is a
  pure function on it.
* A tar stream is the list of (header, payload bytes) records the Go
  `archive/tar` reader would yield; a payload shorter than the declared
  size models a stream truncated mid-entry (the reader's
  `io.ErrUnexpectedEOF`).
* `context.Context` cancellation is a `Nat → Bool` oracle queried once
  per loop iteration / visited object, exactly where the source polls
  `ctx.Done()`.
* `os.Chown` is modelled as an event: each attempt is recorded together
  with the success value of a `chownOk` oracle; the source discards the
  returned error, so the oracle result is never branched on.
-/

/-- A Go string, as its list of characters. -/
abbrev GoStr := List Char

/-- `filepath.Separator` on Unix. -/
def goSep : Char := '/'

/-- The path element `".."`. -/
def dotdot : GoStr := ['.', '.']

/-- `strings.HasPrefix s pre`. -/
def hasPrefixG (s pre : GoStr) : Bool := decide (pre <+: s)

/-- `strings.HasSuffix s suf`. -/
def hasSuffixG (s suf : GoStr) : Bool := decide (suf <:+ s)

/-- `strings.Contains s sub`. -/
def containsG (s sub : GoStr) : Bool := decide (sub <:+: s)

/-- `strings.TrimSuffix s suf`: drops one trailing occurrence of `suf`. -/
def trimSuffixG (s suf : GoStr) : GoStr :=
  if suf <:+ s then s.take (s.length - suf.length) else s

/-- Split a string on `'/'`, keeping empty chunks (`strings.Split s "/"`). -/
def splitSlash : GoStr → List GoStr
  | [] => [[]]
  | c :: rest =>
    let r := splitSlash rest
    if c = goSep then [] :: r
    else
      match r with
      | h :: t => (c :: h) :: t
      | [] => [[c]]

/-- Join components with `'/'` between them. -/
def joinComps (cs : List GoStr) : GoStr := List.intercalate [goSep] cs

/-- The element-processing loop of `filepath.Clean` (lexical processing of
`.`, `..` and empty elements over a stack, Go `path/filepath` algorithm). -/
def cleanLoop (rooted : Bool) : List GoStr → List GoStr → List GoStr
  | [], acc => acc.reverse
  | c :: rest, acc =>
    if c = [] ∨ c = ['.'] then cleanLoop rooted rest acc
    else if c = dotdot then
      match acc with
      | a :: acc2 =>
        if rooted then cleanLoop rooted rest acc2
        else if a = dotdot then cleanLoop rooted rest (dotdot :: a :: acc2)
        else cleanLoop rooted rest acc2
      | [] =>
        if rooted then cleanLoop rooted rest []
        else cleanLoop rooted rest [dotdot]
    else cleanLoop rooted rest (c :: acc)

/-- `filepath.Clean` (Unix). -/
def goClean (p : GoStr) : GoStr :=
  if p = [] then ['.']
  else
    let rooted := hasPrefixG p [goSep]
    let cs := cleanLoop rooted (splitSlash p) []
    if rooted then goSep :: joinComps cs
    else if cs = [] then ['.']
    else joinComps cs

/-- `filepath.Join a b` (Unix, two arguments). -/
def goJoin (a b : GoStr) : GoStr :=
  if a ≠ [] then goClean (a ++ goSep :: b)
  else if b ≠ [] then goClean b
  else []

/-- `filepath.IsAbs` (Unix). -/
def isAbsG (p : GoStr) : Bool := hasPrefixG p [goSep]

/-- `filepath.Abs` with the working directory `cwd` (Unix; `os.Getwd`
is modelled as returning `cwd`). -/
def goAbs (cwd p : GoStr) : GoStr :=
  if isAbsG p then goClean p else goJoin cwd p

/-- `filepath.Split`: splits after the final separator. -/
def goSplit (p : GoStr) : GoStr × GoStr :=
  let fileRev := p.reverse.takeWhile (· ≠ goSep)
  ((p.reverse.drop fileRev.length).reverse, fileRev.reverse)

/-- `filepath.Dir` (Unix). -/
def goDir (p : GoStr) : GoStr := goClean (goSplit p).1

/-- `filepath.Base` (Unix). -/
def goBase (p : GoStr) : GoStr :=
  if p = [] then ['.']
  else
    let q := (p.reverse.dropWhile (· = goSep)).reverse
    if q = [] then [goSep]
    else (goSplit q).2

/-- `ValidRelPath` (src/unnamed/part_002:228-235): a path is rejected
exactly when it is empty, starts with `"/"`, or contains the substring
`"../"`. -/
def ValidRelPath (p : GoStr) : Bool :=
  if p = [] ∨ hasPrefixG p [goSep] ∨ containsG p ('.' :: '.' :: [goSep]) then
    false
  else
    true

/-- The permission normalization of the extractor
(src/unnamed/part_002:144-149): `os.FileMode(header.Mode).Perm()`, with
all three execute bits forced when any execute bit of the header mode is
set. -/
def extractMode (m : Nat) : Nat :=
  let mode := m &&& 0o777
  if m &&& 0o111 ≠ 0 then mode ||| 0o111 else mode

/-- The permission normalization of the builder
(src/unnamed/part_002:52-57): `info.Mode().Perm()`, with all three
execute bits forced when the object is a regular file having any execute
bit set. -/
def buildMode (isRegular : Bool) (m : Nat) : Nat :=
  let mode := m &&& 0o777
  if isRegular ∧ m &&& 0o111 ≠ 0 then mode ||| 0o111 else mode

/-! ## Filesystem model

The filesystem is an association list from canonical absolute paths
(component lists, `[]` being the root directory `/`, which always
exists implicitly) to nodes.  A path string `p` used in an OS call is
resolved against the working directory to the key `absComps cwd p`,
i.e. the non-empty components of `filepath.Abs(p)` — the kernel's path
resolution for a symlink-free filesystem. -/

/-- A filesystem object: a directory or a regular file.  `mtime = 0`
stands for the creation time of objects the extractor makes, matching
`time.Time.IsZero` on the tar side. -/
inductive FsNode where
  | dir (mode : Nat) (mtime : Int)
  | file (content : List Nat) (mode : Nat) (mtime : Int)
  deriving DecidableEq, Repr

/-- A canonical absolute path: its list of components. -/
abbrev FsPath := List GoStr

/-- The filesystem: an association list with unique keys. -/
abbrev FS := List (FsPath × FsNode)

/-- The key a path string resolves to: the non-empty components of its
cleaned absolute form. -/
def absComps (cwd p : GoStr) : FsPath :=
  (splitSlash (goAbs cwd p)).filter (· ≠ [])

def lookupFS (fs : FS) (k : FsPath) : Option FsNode :=
  match fs with
  | [] => none
  | (k2, n) :: rest => if k2 = k then some n else lookupFS rest k

def insertFS (fs : FS) (k : FsPath) (n : FsNode) : FS :=
  match fs with
  | [] => [(k, n)]
  | (k2, n2) :: rest =>
    if k2 = k then (k, n) :: rest else (k2, n2) :: insertFS rest k n

def eraseFS (fs : FS) (k : FsPath) : FS :=
  fs.filter (fun e => e.1 ≠ k)

/-- `some rest` when `pre ++ rest = p`. -/
def dropPrefixPath : FsPath → FsPath → Option FsPath
  | [], p => some p
  | _, [] => none
  | x :: xs, y :: ys => if x = y then dropPrefixPath xs ys else none

/-- Whether `k` denotes an existing directory (the root `[]` always
does). -/
def dirExists (fs : FS) (k : FsPath) : Bool :=
  match k with
  | [] => true
  | _ =>
    match lookupFS fs k with
    | some (.dir _ _) => true
    | _ => false

/-- `os.Stat`: the node at `k`, the implicit root included. -/
def statFS (fs : FS) (k : FsPath) : Option FsNode :=
  match k with
  | [] => some (.dir 0o755 0)
  | _ => lookupFS fs k

/-- `os.MkdirAll` on the reversed key (so the parent recursion is
structural): succeeds if the key is an existing directory; fails on an
existing file; otherwise recursively creates the parent, then the key
itself, every created directory getting `mode`.  The boolean is the
success flag; on failure the partially created prefix is kept, as on a
real filesystem. -/
def osMkdirAllRev : FS → FsPath → Nat → FS × Bool
  | fs, [], _ =>
    match lookupFS fs [] with
    | some (.dir _ _) => (fs, true)
    | some (.file _ _ _) => (fs, false)
    | none => (fs, true)
  | fs, c :: parentRev, mode =>
    match lookupFS fs (c :: parentRev).reverse with
    | some (.dir _ _) => (fs, true)
    | some (.file _ _ _) => (fs, false)
    | none =>
      let r := osMkdirAllRev fs parentRev mode
      if r.2 then (insertFS r.1 (c :: parentRev).reverse (.dir mode 0), true)
      else r

/-- `os.MkdirAll`. -/
def osMkdirAll (fs : FS) (k : FsPath) (mode : Nat) : FS × Bool :=
  osMkdirAllRev fs k.reverse mode

/-- The recursion `os.MkdirAll` actually performs: check the target,
then recurse on the parent (`filepath.Dir`, here `dropLast`). -/
theorem osMkdirAll_eq (fs : FS) (k : FsPath) (mode : Nat) :
    osMkdirAll fs k mode =
      match lookupFS fs k with
      | some (.dir _ _) => (fs, true)
      | some (.file _ _ _) => (fs, false)
      | none =>
        if k = [] then (fs, true)
        else
          let r := osMkdirAll fs k.dropLast mode
          if r.2 then (insertFS r.1 k (.dir mode 0), true) else r := by
  unfold osMkdirAll
  cases hk : k.reverse with
  | nil =>
    have hk0 : k = [] := by simpa using congrArg List.reverse hk
    subst hk0
    rw [osMkdirAllRev]
    cases hl : lookupFS fs [] with
    | some n => cases n <;> simp [hl]
    | none => simp [hl]
  | cons c parentRev =>
    have hke : k = parentRev.reverse ++ [c] := by
      have := congrArg List.reverse hk
      simpa using this
    have hkne : k ≠ [] := by simp [hke]
    have hdrop : k.dropLast = parentRev.reverse := by
      rw [hke, List.dropLast_concat]
    rw [osMkdirAllRev]
    have hcp : (c :: parentRev).reverse = k := by
      rw [hke]
      simp
    rw [hcp]
    cases hl : lookupFS fs k with
    | some n => cases n <;> simp [hl]
    | none =>
      simp only [hl, hkne, if_false, hdrop, List.reverse_reverse]

/-- The direct children of directory `k`: the last components of keys
one level below `k` (`os.ReadDir` without the sorting, which no
settled property depends on). -/
def childNamesFS (fs : FS) (k : FsPath) : List GoStr :=
  fs.filterMap fun e =>
    match dropPrefixPath k e.1 with
    | some [c] => some c
    | _ => none

/-- `os.Remove` with its error discarded (as at both call sites in the
source): deletes a file or an empty directory, does nothing otherwise. -/
def removeFS (fs : FS) (k : FsPath) : FS :=
  match lookupFS fs k with
  | some (.file _ _ _) => eraseFS fs k
  | some (.dir _ _) => if childNamesFS fs k = [] then eraseFS fs k else fs
  | none => fs

/-- `os.OpenFile(target, O_CREATE|O_RDWR|O_TRUNC, mode)` followed by
writing `content` (the bytes `io.Copy` transfers).  Fails if `k` is a
directory or its parent is not an existing directory.  An existing file
is truncated and keeps its old mode (`O_CREATE` does not re-apply the
mode); a fresh file gets `mode`. -/
def osOpenWriteFile (fs : FS) (k : FsPath) (content : List Nat) (mode : Nat) :
    FS × Bool :=
  match lookupFS fs k with
  | some (.dir _ _) => (fs, false)
  | some (.file _ m t) => (insertFS fs k (.file content m t), true)
  | none =>
    match k with
    | [] => (fs, false)
    | _ :: _ =>
      if dirExists fs k.dropLast then (insertFS fs k (.file content mode 0), true)
      else (fs, false)

/-- `os.Chmod`, error discarded: sets the mode if the node exists. -/
def chmodFS (fs : FS) (k : FsPath) (mode : Nat) : FS :=
  match lookupFS fs k with
  | some (.dir _ t) => insertFS fs k (.dir mode t)
  | some (.file c _ t) => insertFS fs k (.file c mode t)
  | none => fs

/-- `os.Chtimes`, error discarded: sets the mtime if the node exists. -/
def chtimesFS (fs : FS) (k : FsPath) (t : Int) : FS :=
  match lookupFS fs k with
  | some (.dir m _) => insertFS fs k (.dir m t)
  | some (.file c m _) => insertFS fs k (.file c m t)
  | none => fs

/-- Re-key every entry under `o` to live under `n` (the subtree move of
a rename). -/
def rekeyFS (fs : FS) (o n : FsPath) : FS :=
  fs.map fun e =>
    match dropPrefixPath o e.1 with
    | some rest => (n ++ rest, e.2)
    | none => e

/-- `os.Rename o n`: POSIX rename.  Renaming a path onto itself
succeeds; a file may replace a file; a directory may replace an empty
directory; everything else fails.  The boolean is the success flag. -/
def renameFS (fs : FS) (o n : FsPath) : FS × Bool :=
  if o = n then (fs, (lookupFS fs o).isSome)
  else
    match lookupFS fs o, lookupFS fs n with
    | none, _ => (fs, false)
    | some _, none => (rekeyFS fs o n, true)
    | some (.file _ _ _), some (.file _ _ _) => (rekeyFS (eraseFS fs n) o n, true)
    | some (.dir _ _), some (.dir _ _) =>
      if childNamesFS fs n = [] then (rekeyFS (eraseFS fs n) o n, true)
      else (fs, false)
    | some _, some _ => (fs, false)

/-! ## Tar stream model -/

/-- The type flag of a tar header, as the extractor distinguishes it:
`TypeDir`, `TypeReg`, `TypeRegA`, and every other flag. -/
inductive TypeFlag where
  | dir
  | reg
  | regA
  | other
  deriving DecidableEq, Repr

/-- A tar header as `archive/tar` presents it: name, declared size,
mode, type flag and modification time (`0` = the zero `time.Time`). -/
structure TarHeader where
  name : GoStr
  size : Nat
  mode : Nat
  typeflag : TypeFlag
  modTime : Int
  deriving DecidableEq, Repr

/-- One record of a tar stream: the header plus the payload bytes the
stream actually provides for it.  `content.length < size` models a
stream that ends before the declared size (the tar reader then reports
`io.ErrUnexpectedEOF` mid-copy). -/
structure TarEntry where
  header : TarHeader
  content : List Nat
  deriving DecidableEq, Repr

/-! ## ExtractTarStream (src/unnamed/part_002:94-221) -/

/-- The distinct error exits of `ExtractTarStream`, one constructor per
`return fmt.Errorf`/`ctx.Err()` site. -/
inductive XErr where
  /-- `ctx.Err()` after `\x3c-ctx.Done()` (line 112). -/
  | cancelled
  /-- `"tar contained invalid name"` (line 127). -/
  | invalidName (name : GoStr)
  /-- `"tar entry path outside extract directory"` (line 141). -/
  | outsidePath (name : GoStr)
  /-- `"failed to create directory"` (line 154). -/
  | mkdirFailed (target : GoStr)
  /-- `"failed to create parent directory"` (line 172). -/
  | parentMkdirFailed (target : GoStr)
  /-- `"failed to create file"` (line 183). -/
  | createFailed (target : GoStr)
  /-- `"failed to write file"` (line 189): `io.Copy` failed, in
  particular with `io.ErrUnexpectedEOF` on a truncated stream. -/
  | writeFailed (target : GoStr)
  /-- `"only wrote %d bytes"` (line 195). -/
  | shortWrite (target : GoStr)
  deriving DecidableEq, Repr

/-- The ambient parameters of one extraction call. -/
structure XCtx where
  /-- Whether `ctx.Done()` is closed at the i-th poll. -/
  cancel : Nat → Bool
  /-- Whether `os.Chown` on this path would succeed; the source discards
  the result. -/
  chownOk : GoStr → Bool
  /-- The working directory `filepath.Abs` resolves against. -/
  cwd : GoStr
  uid : Nat
  gid : Nat

/-- The mutable state of one extraction: the filesystem, the `madeDir`
set of already created parent strings, and the trace of attempted
`os.Chown` calls `(path, uid, gid, wouldSucceed)`. -/
structure XState where
  fs : FS
  madeDir : List GoStr
  chowns : List (GoStr × Nat × Nat × Bool)
  deriving DecidableEq, Repr

/-- Record an `os.Chown(target, uid, gid)` attempt; its error (the
boolean) is discarded by the caller (lines 160, 206). -/
def doChown (C : XCtx) (st : XState) (target : GoStr) : XState :=
  { st with chowns := (target, C.uid, C.gid, C.chownOk target) :: st.chowns }

/-- Materialize a directory entry (lines 152-165): `os.MkdirAll` with
the normalized mode, record `target` in `madeDir`, then best-effort
chown and mtime. -/
def extractDirEntry (C : XCtx) (target : GoStr) (key : FsPath) (mode : Nat)
    (modTime : Int) (st : XState) : XState × Option XErr :=
  let r := osMkdirAll st.fs key mode
  if r.2 = false then ({ st with fs := r.1 }, some (.mkdirFailed target))
  else
    let st1 := { st with fs := r.1, madeDir := target :: st.madeDir }
    let st2 := if C.uid > 0 ∨ C.gid > 0 then doChown C st1 target else st1
    let st3 :=
      if modTime ≠ 0 then { st2 with fs := chtimesFS st2.fs key modTime }
      else st2
    (st3, none)

/-- The write phase of a regular-file entry (lines 177-212), entered
with the parent directory ensured: remove an existing file, create and
write the file, detect a truncated or short copy, re-apply the mode,
then best-effort chown and mtime. -/
def extractRegWrite (C : XCtx) (target : GoStr) (key : FsPath) (mode : Nat)
    (e : TarEntry) (stA : XState) : XState × Option XErr :=
  let fsR := removeFS stA.fs key
  let taken := e.content.take e.header.size
  let opened := osOpenWriteFile fsR key taken mode
  if opened.2 = false then
    ({ stA with fs := opened.1 }, some (.createFailed target))
  else
    let stB := { stA with fs := opened.1 }
    if e.content.length < e.header.size then
      (stB, some (.writeFailed target))
    else if e.header.size > 0 ∧ taken.length ≠ e.header.size then
      (stB, some (.shortWrite target))
    else
      let stC := { stB with fs := chmodFS stB.fs key mode }
      let stD := if C.uid > 0 ∨ C.gid > 0 then doChown C stC target else stC
      let stE :=
        if e.header.modTime ≠ 0 then
          { stD with fs := chtimesFS stD.fs key e.header.modTime }
        else stD
      (stE, none)

/-- Materialize a regular-file entry (lines 167-212): create the parent
directory unless noted in `madeDir`, then the write phase. -/
def extractRegEntry (C : XCtx) (target : GoStr) (key : FsPath) (mode : Nat)
    (e : TarEntry) (st : XState) : XState × Option XErr :=
  let parentDir := goDir target
  let stepA : XState × Bool :=
    if parentDir ∈ st.madeDir then (st, true)
    else
      let r := osMkdirAll st.fs (absComps C.cwd parentDir) 0o755
      if r.2 then
        ({ st with fs := r.1, madeDir := parentDir :: st.madeDir }, true)
      else ({ st with fs := r.1 }, false)
  if stepA.2 = false then (stepA.1, some (.parentMkdirFailed target))
  else extractRegWrite C target key mode e stepA.1

/-- Process one tar entry (the body of the loop at lines 116-217):
name validation, containment check, permission normalization, then
materialization by type flag.  Returns the state as mutated so far and
`some err` when the entry aborts extraction. -/
def extractEntry (C : XCtx) (extractDir absExtractDir : GoStr)
    (st : XState) (e : TarEntry) : XState × Option XErr :=
  let name := trimSuffixG e.header.name [goSep]
  if ValidRelPath name = false then (st, some (.invalidName e.header.name))
  else
    -- `filepath.FromSlash` is the identity on Unix (line 130)
    let rel := name
    let target := goJoin extractDir rel
    let absTarget := goClean (goAbs C.cwd target)
    let base := trimSuffixG absExtractDir [goSep]
    if absTarget ≠ base ∧ hasPrefixG absTarget (base ++ [goSep]) = false then
      (st, some (.outsidePath e.header.name))
    else
      let mode := extractMode e.header.mode
      let key := absComps C.cwd target
      match e.header.typeflag with
      | .dir => extractDirEntry C target key mode e.header.modTime st
      | .other => (st, none)
      | _ =>
        -- TypeReg and TypeRegA (line 167)
        extractRegEntry C target key mode e st

/-- The extraction loop (lines 109-218): poll cancellation, read the
next header (end of list = `io.EOF`), process the entry. -/
def extractLoop (C : XCtx) (extractDir absExtractDir : GoStr) :
    Nat → List TarEntry → XState → XState × Option XErr
  | i, es, st =>
    if C.cancel i then (st, some .cancelled)
    else
      match es with
      | [] => (st, none)
      | e :: rest =>
        match extractEntry C extractDir absExtractDir st e with
        | (st2, none) => extractLoop C extractDir absExtractDir (i + 1) rest st2
        | (st2, some err) => (st2, some err)

/-- `ExtractTarStream` (lines 99-221): computes the canonical extract
directory with a trailing separator (lines 100-104), then runs the
loop over the stream starting from filesystem `fs0`. -/
def ExtractTarStream (C : XCtx) (entries : List TarEntry)
    (extractDir : GoStr) (fs0 : FS) : XState × Option XErr :=
  let absExtractDir := goClean (goAbs C.cwd extractDir) ++ [goSep]
  extractLoop C extractDir absExtractDir 0 entries ⟨fs0, [], []⟩

/-! ## ExtractTarToPath (src/unnamed/part_002:237-300) -/

/-- The distinct error exits of `ExtractTarToPath`. -/
inductive CpErr where
  /-- `"parent directory does not exist"` (line 256). -/
  | parentMissing
  /-- `"failed to extract tar"` (line 264). -/
  | extractErr (e : XErr)
  /-- `"failed to read extracted directory"` (line 271): `os.ReadDir`
  fails when the extraction directory is not a readable directory. -/
  | readDirFailed
  /-- `"tar archive was empty"` (line 275). -/
  | emptyArchive
  /-- `"cannot extract multiple files to single file destination"`
  (line 279). -/
  | ambiguousDest
  /-- `"failed to create parent directory"` (line 290). -/
  | mkdirParentFailed
  /-- `"failed to rename extracted content to destination"`
  (line 295). -/
  | renameFailed
  deriving DecidableEq, Repr

/-- `ExtractTarToPath` (lines 241-300): extract with cp-like placement.
Returns the final filesystem and `some err` on failure. -/
def ExtractTarToPath (C : XCtx) (entries : List TarEntry) (dest : GoStr)
    (fs0 : FS) : FS × Option CpErr :=
  let destInfo := statFS fs0 (absComps C.cwd dest)
  let destIsDir :=
    match destInfo with
    | some (.dir _ _) => true
    | _ => false
  let parentDir := goDir dest
  -- (extractDir, topLevelName); an empty topLevelName means no rename
  let choice : GoStr × GoStr :=
    if destIsDir then (dest, []) else (parentDir, goBase dest)
  if destIsDir = false ∧ statFS fs0 (absComps C.cwd parentDir) = none then
    (fs0, some .parentMissing)
  else
    let extractDir := choice.1
    let topLevelName := choice.2
    match ExtractTarStream C entries extractDir fs0 with
    | (st, some err) => (st.fs, some (.extractErr err))
    | (st, none) =>
      if topLevelName = [] then (st.fs, none)
      else if dirExists st.fs (absComps C.cwd extractDir) = false then
        -- `os.ReadDir(extractDir)` fails (line 271)
        (st.fs, some .readDirFailed)
      else
        match childNamesFS st.fs (absComps C.cwd extractDir) with
        | [] => (st.fs, some .emptyArchive)
        | [n] =>
          let extractedPath := goJoin extractDir n
          let finalDest := dest
          let fs1 := removeFS st.fs (absComps C.cwd finalDest)
          let r := osMkdirAll fs1 (absComps C.cwd (goDir finalDest)) 0o755
          if r.2 = false then (r.1, some .mkdirParentFailed)
          else
            let rn := renameFS r.1 (absComps C.cwd extractedPath)
                (absComps C.cwd finalDest)
            if rn.2 = false then (rn.1, some .renameFailed)
            else (rn.1, none)
        | _ => (st.fs, some .ambiguousDest)

/-! ## StreamTarArchive (src/unnamed/part_002:13-92)

`filepath.Walk` visits the source object and, depth first and parents
first, every object below it; the model takes the list of visited
objects in walk order, each with its path relative to the walk root
(`[]` for the root itself, which the callback skips) and its metadata.
Only regular files and directories occur: the callback skips every
other kind, and the settled claims concern trees of files and
directories only. -/

/-- Metadata of one visited filesystem object: a regular file with its
bytes, mode and mtime, or a directory with its `info.Size()`, mode and
mtime. -/
inductive TNode where
  | tfile (content : List Nat) (mode : Nat) (mtime : Int)
  | tdir (size : Nat) (mode : Nat) (mtime : Int)
  deriving DecidableEq, Repr

/-- A source tree as `filepath.Walk` enumerates it: visited objects in
walk order with their relative component paths. -/
abbrev TreeList := List (FsPath × TNode)

/-- The tar records the callback writes for one visited object
(lines 44-88): none for the walk root; a header plus the file bytes for
a regular file; a header with a trailing-slash name for a directory. -/
def buildEntry (rs : FsPath) (n : TNode) : List TarEntry :=
  if rs = [] then []
  else
    match n with
    | .tfile content mode mtime =>
      [⟨⟨joinComps rs, content.length, buildMode true mode, .reg, mtime⟩,
        content⟩]
    | .tdir size mode mtime =>
      [⟨⟨joinComps rs ++ [goSep], size, buildMode false mode, .dir, mtime⟩,
        []⟩]

/-- The walk loop: poll cancellation at each visited object
(lines 23-27), then emit its records.  Returns the records written to
the stream before any error, and the error. -/
def buildLoop (cancel : Nat → Bool) :
    Nat → TreeList → List TarEntry × Option XErr
  | _, [] => ([], none)
  | i, (rs, n) :: rest =>
    if cancel i then ([], some .cancelled)
    else
      let r := buildLoop cancel (i + 1) rest
      (buildEntry rs n ++ r.1, r.2)

/-- `StreamTarArchive` (lines 16-92) over the walk enumeration of the
source tree. -/
def StreamTarArchive (cancel : Nat → Bool) (tree : TreeList) :
    List TarEntry × Option XErr :=
  buildLoop cancel 0 tree

/-! ## Permission-mode lemmas (claims C4, C7) -/

theorem and_0o777_eq_mod (m : Nat) : m &&& 0o777 = m % 512 := by
  have h := Nat.and_pow_two_sub_one_eq_mod m 9
  norm_num at h
  exact h

theorem and_0o111_eq_mod (m : Nat) : m &&& 0o111 = m % 512 &&& 0o111 := by
  have h : (0o111 : Nat) = 0o777 &&& 0o111 := by decide
  conv_lhs => rw [h]
  rw [← Nat.and_assoc, and_0o777_eq_mod]

/-- `extractMode` depends only on the 9 low permission bits. -/
theorem extractMode_eq (m : Nat) :
    extractMode m =
      (if m % 512 &&& 0o111 ≠ 0 then m % 512 ||| 0o111 else m % 512) := by
  unfold extractMode
  rw [and_0o777_eq_mod, and_0o111_eq_mod]

/-- On a regular file the builder's normalization and the extractor's
coincide. -/
theorem buildMode_true_eq (m : Nat) : buildMode true m = extractMode m := by
  simp [buildMode, extractMode]

/-- On a directory the builder records the bare permission bits. -/
theorem buildMode_false_eq (m : Nat) : buildMode false m = m % 512 := by
  simp [buildMode, and_0o777_eq_mod]

set_option maxRecDepth 100000 in
/-- Exhaustive facts about the normalization on the 9-bit range. -/
theorem modeLowFacts :
    ∀ r < 512,
      r &&& 0o7000 = 0 ∧
      (if r &&& 0o111 ≠ 0 then r ||| 0o111 else r) < 512 ∧
      (if r &&& 0o111 ≠ 0 then r ||| 0o111 else r) &&& 0o7000 = 0 ∧
      (if r &&& 0o111 ≠ 0 then r ||| 0o111 else r) &&& 0o666 = r &&& 0o666 ∧
      (r &&& 0o111 = 0 → (if r &&& 0o111 ≠ 0 then r ||| 0o111 else r) = r) ∧
      (r &&& 0o111 ≠ 0 →
        (if r &&& 0o111 ≠ 0 then r ||| 0o111 else r) &&& 0o111 = 0o111) := by
  decide

/-- C7: the permission mode applied by the extractor and recorded by the
builder is confined to the 9 standard permission bits; the setuid,
setgid and sticky bits of the declared mode are never honored.  A
declared mode 4777 materializes as 0777 with no setuid bit, and a
declared 0600 with no execute bits materializes with none. -/
theorem C7_mode_confined_to_permission_bits :
    (∀ m, extractMode m < 0o1000 ∧ extractMode m &&& 0o7000 = 0) ∧
    (∀ (isReg : Bool) m,
      buildMode isReg m < 0o1000 ∧ buildMode isReg m &&& 0o7000 = 0) ∧
    extractMode 0o4777 = 0o777 ∧ extractMode 0o4777 &&& 0o4000 = 0 ∧
    extractMode 0o600 = 0o600 ∧ extractMode 0o600 &&& 0o111 = 0 := by
  have hx : ∀ m, extractMode m < 0o1000 ∧ extractMode m &&& 0o7000 = 0 := by
    intro m
    rw [extractMode_eq]
    have h := modeLowFacts (m % 512) (by omega)
    exact ⟨h.2.1, h.2.2.1⟩
  refine ⟨hx, ?_, by decide, by decide, by decide, by decide⟩
  intro isReg m
  cases isReg
  · rw [buildMode_false_eq]
    have h := modeLowFacts (m % 512) (by omega)
    exact ⟨by omega, h.1⟩
  · rw [buildMode_true_eq]
    exact hx m

/-- C4 counterexample: a regular file with mode 0700 (execute for owner
only) is recorded by the builder with mode 0711 and extracted with mode
0711 — the group and other execute bits are added, so the execute bits
are not preserved verbatim. -/
theorem C4_counterexample :
    buildMode true 0o700 = 0o711 ∧ extractMode 0o700 = 0o711 ∧
    0o700 &&& 0o011 = 0 ∧ 0o711 &&& 0o011 ≠ 0 := by decide

/-- C4 as amended: for a regular file, executability is preserved as a
whole, not bitwise — when any execute bit is set in the original mode,
builder and extractor set all three execute bits; when none is set,
none is added; the non-execute permission bits are preserved
verbatim. -/
theorem C4_exec_bits_normalized :
    ∀ m,
      (m &&& 0o111 ≠ 0 →
        buildMode true m &&& 0o111 = 0o111 ∧
        extractMode m &&& 0o111 = 0o111) ∧
      (m &&& 0o111 = 0 →
        buildMode true m = m % 512 ∧ extractMode m = m % 512) ∧
      buildMode true m &&& 0o666 = m &&& 0o666 ∧
      extractMode m &&& 0o666 = m &&& 0o666 := by
  intro m
  have h := modeLowFacts (m % 512) (by omega)
  have hm111 := and_0o111_eq_mod m
  have hm666 : m &&& 0o666 = m % 512 &&& 0o666 := by
    have h9 : (0o666 : Nat) = 0o777 &&& 0o666 := by decide
    conv_lhs => rw [h9]
    rw [← Nat.and_assoc, and_0o777_eq_mod]
  refine ⟨?_, ?_, ?_, ?_⟩
  · intro hne
    rw [buildMode_true_eq, extractMode_eq]
    rw [hm111] at hne
    constructor <;> exact h.2.2.2.2.2 hne
  · intro heq
    rw [buildMode_true_eq, extractMode_eq]
    rw [hm111] at heq
    constructor <;> · rw [h.2.2.2.2.1 heq]
  · rw [buildMode_true_eq, extractMode_eq, hm666]
    exact h.2.2.2.1
  · rw [extractMode_eq, hm666]
    exact h.2.2.2.1

/-- Witness for C4's amended theorem at modes 0700 and 0600. -/
theorem C4_exec_bits_normalized_witness :
    buildMode true 0o700 &&& 0o111 = 0o111 ∧
    extractMode 0o600 = 0o600 % 512 := by
  exact ⟨((C4_exec_bits_normalized 0o700).1 (by decide)).1,
    ((C4_exec_bits_normalized 0o600).2.1 (by decide)).2⟩

/-! ## Association-list lemmas -/

theorem lookup_insertFS_self (fs : FS) (k : FsPath) (n : FsNode) :
    lookupFS (insertFS fs k n) k = some n := by
  induction fs with
  | nil => simp [insertFS, lookupFS]
  | cons e rest ih =>
    by_cases h : e.1 = k
    · simp [insertFS, h, lookupFS]
    · obtain ⟨k2, n2⟩ := e
      simp only at h
      simp [insertFS, h, lookupFS, ih]

theorem lookup_insertFS_ne (fs : FS) (k k2 : FsPath) (n : FsNode)
    (h : k2 ≠ k) : lookupFS (insertFS fs k n) k2 = lookupFS fs k2 := by
  induction fs with
  | nil => simp [insertFS, lookupFS, Ne.symm h]
  | cons e rest ih =>
    obtain ⟨k3, n3⟩ := e
    by_cases h3 : k3 = k
    · subst h3
      simp [insertFS, lookupFS, Ne.symm h]
    · simp only [insertFS, h3, if_false]
      by_cases h4 : k3 = k2
      · simp [lookupFS, h4]
      · simp [lookupFS, h4, ih]

theorem lookup_eraseFS_self (fs : FS) (k : FsPath) :
    lookupFS (eraseFS fs k) k = none := by
  induction fs with
  | nil => simp [eraseFS, lookupFS]
  | cons e rest ih =>
    obtain ⟨k2, n2⟩ := e
    by_cases h : k2 = k
    · simpa [eraseFS, h] using ih
    · simpa [eraseFS, lookupFS, h] using ih

theorem lookup_eraseFS_ne (fs : FS) (k k2 : FsPath) (h : k2 ≠ k) :
    lookupFS (eraseFS fs k) k2 = lookupFS fs k2 := by
  induction fs with
  | nil => simp [eraseFS, lookupFS]
  | cons e rest ih =>
    obtain ⟨k3, n3⟩ := e
    by_cases h3 : k3 = k
    · subst h3
      simpa [eraseFS, lookupFS, Ne.symm h] using ih
    · by_cases h4 : k3 = k2
      · subst h4
        rw [eraseFS, List.filter_cons_of_pos (by simp [h3])]
        simp [lookupFS]
      · simpa [eraseFS, lookupFS, h3, h4] using ih

theorem lookup_removeFS_ne (fs : FS) (k k2 : FsPath) (h : k2 ≠ k) :
    lookupFS (removeFS fs k) k2 = lookupFS fs k2 := by
  unfold removeFS
  split
  · exact lookup_eraseFS_ne fs k k2 h
  · split
    · exact lookup_eraseFS_ne fs k k2 h
    · rfl
  · rfl

theorem lookup_removeFS_file (fs : FS) (k : FsPath) (c : List Nat)
    (m : Nat) (t : Int) (h : lookupFS fs k = some (.file c m t)) :
    lookupFS (removeFS fs k) k = none := by
  unfold removeFS
  rw [h]
  exact lookup_eraseFS_self fs k

theorem lookup_removeFS_none (fs : FS) (k : FsPath)
    (h : lookupFS fs k = none) : lookupFS (removeFS fs k) k = none := by
  unfold removeFS
  rw [h]
  exact h

theorem dirExists_of_lookup_eq (fs fs2 : FS) (k : FsPath)
    (h : lookupFS fs2 k = lookupFS fs k) :
    dirExists fs2 k = dirExists fs k := by
  unfold dirExists
  cases k with
  | nil => rfl
  | cons c rest => rw [h]

/-- No filesystem stores the implicit root `[]` as a key. -/
def NoRootKey (fs : FS) : Prop := lookupFS fs [] = none

/-- `os.MkdirAll` on an existing directory is a no-op. -/
theorem osMkdirAll_noop (fs : FS) (k : FsPath) (mode : Nat)
    (hroot : NoRootKey fs) (h : dirExists fs k = true) :
    osMkdirAll fs k mode = (fs, true) := by
  unfold dirExists at h
  rw [osMkdirAll_eq]
  cases k with
  | nil =>
    have hr : lookupFS fs [] = none := hroot
    simp [hr]
  | cons c rest =>
    cases hl : lookupFS fs (c :: rest) with
    | none => simp_all
    | some n => cases n <;> simp_all

/-- Creating a fresh file under an existing directory succeeds and
installs exactly that file. -/
theorem osOpenWriteFile_create (fs : FS) (k : FsPath) (content : List Nat)
    (mode : Nat) (hk : k ≠ []) (hnone : lookupFS fs k = none)
    (hpar : dirExists fs k.dropLast = true) :
    osOpenWriteFile fs k content mode =
      (insertFS fs k (.file content mode 0), true) := by
  unfold osOpenWriteFile
  rw [hnone]
  cases k with
  | nil => exact absurd rfl hk
  | cons c rest => simp [hpar]

/-! ## Branch analysis of one extraction step -/

set_option linter.unreachableTactic false
set_option linter.unusedTactic false

theorem extractDirEntry_err (C : XCtx) (target : GoStr) (key : FsPath)
    (mode : Nat) (mt : Int) (st : XState) :
    (extractDirEntry C target key mode mt st).2 = none ∨
    (extractDirEntry C target key mode mt st).2 = some (.mkdirFailed target) := by
  unfold extractDirEntry
  cases h : (osMkdirAll st.fs key mode).2 <;> simp [h] <;> split <;> simp

theorem extractRegWrite_err (C : XCtx) (target : GoStr) (key : FsPath)
    (mode : Nat) (e : TarEntry) (stA : XState) :
    (extractRegWrite C target key mode e stA).2 = none ∨
    (extractRegWrite C target key mode e stA).2 = some (.createFailed target) ∨
    (extractRegWrite C target key mode e stA).2 = some (.writeFailed target) ∨
    (extractRegWrite C target key mode e stA).2 = some (.shortWrite target) := by
  unfold extractRegWrite
  cases h : (osOpenWriteFile (removeFS stA.fs key) key
      (e.content.take e.header.size) mode).2 <;> simp [h]
  split
  · simp
  · split <;> simp

theorem extractRegEntry_err (C : XCtx) (target : GoStr) (key : FsPath)
    (mode : Nat) (e : TarEntry) (st : XState) :
    (extractRegEntry C target key mode e st).2 = none ∨
    (extractRegEntry C target key mode e st).2 = some (.parentMkdirFailed target) ∨
    (extractRegEntry C target key mode e st).2 = some (.createFailed target) ∨
    (extractRegEntry C target key mode e st).2 = some (.writeFailed target) ∨
    (extractRegEntry C target key mode e st).2 = some (.shortWrite target) := by
  simp only [extractRegEntry]
  split
  case isTrue hmem =>
    rcases extractRegWrite_err C target key mode e st with h | h | h | h <;>
      simp [h]
  case isFalse hmem =>
    cases h2 : (osMkdirAll st.fs (absComps C.cwd (goDir target)) 0o755).2
    · simp [h2]
    · have H := extractRegWrite_err C target key mode e
        (⟨(osMkdirAll st.fs (absComps C.cwd (goDir target)) 0o755).1,
          goDir target :: st.madeDir, st.chowns⟩)
      rcases H with h | h | h | h <;> simp [h2, h]

/-- An entry failing name validation aborts immediately, leaving the
state untouched. -/
theorem extractEntry_invalid (C : XCtx) (eD aED : GoStr) (st : XState)
    (e : TarEntry)
    (hv : ValidRelPath (trimSuffixG e.header.name [goSep]) = false) :
    extractEntry C eD aED st e = (st, some (.invalidName e.header.name)) := by
  simp [extractEntry, hv]

/-- An entry passing name validation never produces the invalid-name
error. -/
theorem extractEntry_valid_no_invalidName (C : XCtx) (eD aED : GoStr)
    (st : XState) (e : TarEntry)
    (hv : ValidRelPath (trimSuffixG e.header.name [goSep]) = true) :
    ∀ nm, (extractEntry C eD aED st e).2 ≠ some (.invalidName nm) := by
  intro nm
  simp only [extractEntry, hv]
  rw [if_neg (by simp)]
  split
  · simp
  · split
    · rcases extractDirEntry_err C
          (goJoin eD (trimSuffixG e.header.name [goSep]))
          (absComps C.cwd (goJoin eD (trimSuffixG e.header.name [goSep])))
          (extractMode e.header.mode) e.header.modTime st with h | h <;>
        simp [h]
    · simp
    · rcases extractRegEntry_err C
          (goJoin eD (trimSuffixG e.header.name [goSep]))
          (absComps C.cwd (goJoin eD (trimSuffixG e.header.name [goSep])))
          (extractMode e.header.mode) e st with h | h | h | h | h <;>
        simp [h]

/-- An entry passing name validation but failing the containment check
aborts with the path-outside error, leaving the state untouched. -/
theorem extractEntry_outside (C : XCtx) (eD aED : GoStr) (st : XState)
    (e : TarEntry)
    (hv : ValidRelPath (trimSuffixG e.header.name [goSep]) = true)
    (hesc :
      goClean (goAbs C.cwd (goJoin eD (trimSuffixG e.header.name [goSep]))) ≠
          trimSuffixG aED [goSep] ∧
        hasPrefixG
            (goClean (goAbs C.cwd
              (goJoin eD (trimSuffixG e.header.name [goSep]))))
            (trimSuffixG aED [goSep] ++ [goSep]) = false) :
    extractEntry C eD aED st e = (st, some (.outsidePath e.header.name)) := by
  simp only [extractEntry, hv]
  rw [if_neg (by simp), if_pos hesc]

/-- An entry passing both checks reduces to its type-flag branch. -/
theorem extractEntry_checked (C : XCtx) (eD aED : GoStr) (st : XState)
    (e : TarEntry)
    (hv : ValidRelPath (trimSuffixG e.header.name [goSep]) = true)
    (hesc :
      ¬(goClean (goAbs C.cwd (goJoin eD (trimSuffixG e.header.name [goSep]))) ≠
          trimSuffixG aED [goSep] ∧
        hasPrefixG
            (goClean (goAbs C.cwd
              (goJoin eD (trimSuffixG e.header.name [goSep]))))
            (trimSuffixG aED [goSep] ++ [goSep]) = false)) :
    extractEntry C eD aED st e =
      match e.header.typeflag with
      | .dir =>
        extractDirEntry C (goJoin eD (trimSuffixG e.header.name [goSep]))
          (absComps C.cwd (goJoin eD (trimSuffixG e.header.name [goSep])))
          (extractMode e.header.mode) e.header.modTime st
      | .other => (st, none)
      | _ =>
        extractRegEntry C (goJoin eD (trimSuffixG e.header.name [goSep]))
          (absComps C.cwd (goJoin eD (trimSuffixG e.header.name [goSep])))
          (extractMode e.header.mode) e st := by
  simp only [extractEntry, hv]
  rw [if_neg (by simp), if_neg hesc]

/-- `ValidRelPath` rejects exactly the empty name, a leading slash, or a
`"../"` substring. -/
theorem ValidRelPath_false_iff (p : GoStr) :
    ValidRelPath p = false ↔
      (p = [] ∨ hasPrefixG p [goSep] = true ∨
        containsG p ('.' :: '.' :: [goSep]) = true) := by
  unfold ValidRelPath
  split
  case isTrue h =>
    simp only [eq_self_iff_true, true_iff]
    tauto
  case isFalse h =>
    simp only [Bool.true_eq_false, false_iff]
    tauto

/-- C5 counterexample: the entry name `".."` is a pure parent-directory
traversal segment, yet passes `ValidRelPath` (the code checks only for
the substring `"../"`); the extractor instead stops it later with the
path-outside-directory error, not the invalid-name error. -/
theorem C5_counterexample :
    ValidRelPath ("..".toList) = true ∧
    dotdot ∈ splitSlash ("..".toList) ∧
    (ExtractTarStream ⟨fun _ => false, fun _ => true, "/w".toList, 0, 0⟩
        [⟨⟨"..".toList, 0, 0o644, .reg, 0⟩, []⟩] ("/tmp/x".toList) []).2 =
      some (.outsidePath ("..".toList)) := by decide

/-- C5 as amended: extraction rejects an entry with the fatal
invalid-name error, leaving the state untouched, exactly when the
entry's name (after removing one trailing slash) is empty, begins with
the root separator, or contains the substring `"../"`; a name whose
final segment is `".."` (no trailing slash after it) is not caught by
this check — it falls through to the containment check. -/
theorem C5_name_validation :
    ∀ (C : XCtx) (eD aED : GoStr) (st : XState) (e : TarEntry),
      ((extractEntry C eD aED st e).2 = some (.invalidName e.header.name) ↔
        (trimSuffixG e.header.name [goSep] = [] ∨
          hasPrefixG (trimSuffixG e.header.name [goSep]) [goSep] = true ∨
          containsG (trimSuffixG e.header.name [goSep])
              ('.' :: '.' :: [goSep]) = true)) ∧
      (ValidRelPath (trimSuffixG e.header.name [goSep]) = false →
        extractEntry C eD aED st e = (st, some (.invalidName e.header.name))) := by
  intro C eD aED st e
  constructor
  · rw [← ValidRelPath_false_iff]
    constructor
    · intro h
      cases hv : ValidRelPath (trimSuffixG e.header.name [goSep])
      · rfl
      · exact absurd h (extractEntry_valid_no_invalidName C eD aED st e hv _)
    · intro hv
      rw [extractEntry_invalid C eD aED st e hv]
  · exact extractEntry_invalid C eD aED st e

/-! ## Cancellation (claim C9) -/

/-- Dropping the cancellation oracle changes nothing in one entry step. -/
theorem extractEntry_cancel_irrel (C : XCtx) (f : Nat → Bool)
    (eD aED : GoStr) (st : XState) (e : TarEntry) :
    extractEntry { C with cancel := f } eD aED st e =
      extractEntry C eD aED st e := rfl

/-- If the first `k` polls see no cancellation, the `k`-th poll fires,
and the first `k` entries extract cleanly, the cancelled run equals the
clean run of those `k` entries followed by the `Cancelled` error. -/
theorem extractLoop_cancel_prefix (C : XCtx) (eD aED : GoStr) :
    ∀ (k i0 : Nat) (es : List TarEntry) (st : XState),
      (∀ j, j < k → C.cancel (i0 + j) = false) → C.cancel (i0 + k) = true →
      k ≤ es.length →
      (extractLoop { C with cancel := fun _ => false } eD aED i0
          (es.take k) st).2 = none →
      extractLoop C eD aED i0 es st =
        ((extractLoop { C with cancel := fun _ => false } eD aED i0
            (es.take k) st).1,
          some .cancelled) := by
  intro k
  induction k with
  | zero =>
    intro i0 es st hlt hk hlen hnone
    rw [Nat.add_zero] at hk
    rw [extractLoop.eq_def, extractLoop.eq_def]
    simp [hk]
  | succ k ih =>
    intro i0 es st hlt hk hlen hnone
    cases es with
    | nil => simp at hlen
    | cons e rest =>
      have h0 : C.cancel i0 = false := by
        have := hlt 0 (by omega)
        simpa using this
      rw [List.take_succ_cons] at hnone ⊢
      rw [extractLoop.eq_def] at hnone ⊢
      conv_rhs => rw [extractLoop.eq_def]
      simp only [h0, if_false, extractEntry_cancel_irrel] at hnone ⊢
      cases hstep : extractEntry C eD aED st e with
      | mk st2 err =>
        rw [hstep] at hnone
        cases err with
        | some err2 => simp at hnone
        | none =>
          simp only [hstep] at hnone ⊢
          simp at hnone ⊢
          exact ih (i0 + 1) rest st2
            (fun j hj => by
              have := hlt (j + 1) (by omega)
              rwa [show i0 + (j + 1) = i0 + 1 + j by omega] at this)
            (by rwa [show i0 + 1 + k = i0 + (k + 1) by omega])
            (by simpa using hlen) hnone

/-- C9: cancellation is polled once per entry by extractor and builder.
An already-cancelled signal makes extraction return `Cancelled` before
touching the filesystem; more generally, if the signal fires at the
`k`-th poll, the run equals the clean extraction of the first `k`
entries — all of them remain in place, nothing is rolled back — followed
by the `Cancelled` error; and a builder started with an already-cancelled
signal emits no records and reports `Cancelled`. -/
theorem C9_cancellation :
    (∀ (C : XCtx) (entries : List TarEntry) (eD : GoStr) (fs0 : FS),
      C.cancel 0 = true →
      ExtractTarStream C entries eD fs0 = (⟨fs0, [], []⟩, some .cancelled)) ∧
    (∀ (C : XCtx) (entries : List TarEntry) (eD : GoStr) (fs0 : FS) (k : Nat),
      (∀ j, j < k → C.cancel j = false) → C.cancel k = true →
      k ≤ entries.length →
      (ExtractTarStream { C with cancel := fun _ => false } (entries.take k)
          eD fs0).2 = none →
      ExtractTarStream C entries eD fs0 =
        ((ExtractTarStream { C with cancel := fun _ => false }
            (entries.take k) eD fs0).1, some .cancelled)) ∧
    (∀ (cancel : Nat → Bool) (x : FsPath × TNode) (tree : TreeList),
      cancel 0 = true →
      StreamTarArchive cancel (x :: tree) = ([], some .cancelled)) := by
  refine ⟨?_, ?_, ?_⟩
  · intro C entries eD fs0 h
    unfold ExtractTarStream
    rw [extractLoop.eq_def]
    simp [h]
  · intro C entries eD fs0 k hlt hk hlen hnone
    unfold ExtractTarStream at hnone ⊢
    exact extractLoop_cancel_prefix C eD _ k 0 entries ⟨fs0, [], []⟩
      (by simpa using hlt) (by simpa using hk) hlen hnone
  · intro cancel x tree h
    obtain ⟨rs, n⟩ := x
    simp [StreamTarArchive, buildLoop, h]

/-- Witness for C9: a signal cancelled from the second poll onwards, on
a two-entry archive, extracts exactly the first entry and then reports
`Cancelled`. -/
theorem C9_cancellation_witness :
    ExtractTarStream
        ⟨fun i => decide (1 ≤ i), fun _ => true, "/w".toList, 0, 0⟩
        [⟨⟨"a/".toList, 0, 0o755, .dir, 0⟩, []⟩,
         ⟨⟨"b/".toList, 0, 0o755, .dir, 0⟩, []⟩]
        ("/d".toList) [(["d".toList], .dir 0o755 0)] =
      ((ExtractTarStream ⟨fun _ => false, fun _ => true, "/w".toList, 0, 0⟩
          [⟨⟨"a/".toList, 0, 0o755, .dir, 0⟩, []⟩]
          ("/d".toList) [(["d".toList], .dir 0o755 0)]).1,
        some .cancelled) :=
  C9_cancellation.2.1
    ⟨fun i => decide (1 ≤ i), fun _ => true, "/w".toList, 0, 0⟩
    [⟨⟨"a/".toList, 0, 0o755, .dir, 0⟩, []⟩,
     ⟨⟨"b/".toList, 0, 0o755, .dir, 0⟩, []⟩]
    ("/d".toList) [(["d".toList], .dir 0o755 0)] 1
    (by decide) (by decide) (by decide) (by decide)

/-- Witness for C5's amended theorem: the name `"a/../b"` contains
`"../"` and is rejected with the invalid-name error, state untouched. -/
theorem C5_name_validation_witness :
    extractEntry ⟨fun _ => false, fun _ => true, "/w".toList, 0, 0⟩
        ("/tmp/x".toList) ("/tmp/x/".toList) ⟨[], [], []⟩
        ⟨⟨"a/../b".toList, 0, 0o644, .reg, 0⟩, []⟩ =
      (⟨[], [], []⟩, some (.invalidName ("a/../b".toList))) :=
  (C5_name_validation ⟨fun _ => false, fun _ => true, "/w".toList, 0, 0⟩
      ("/tmp/x".toList) ("/tmp/x/".toList) ⟨[], [], []⟩
      ⟨⟨"a/../b".toList, 0, 0o644, .reg, 0⟩, []⟩).2 (by decide)

/-- C10: name validation and the containment check run before the type
flag is examined, so an entry of an unsupported kind with a bad name
aborts the extraction with the corresponding fatal error instead of
being skipped; only an unsupported entry passing both checks reaches
the skip branch, which leaves the state untouched and continues. -/
theorem C10_checks_before_typeflag :
    ∀ (C : XCtx) (eD aED : GoStr) (st : XState) (e : TarEntry),
      e.header.typeflag = .other →
      ((ValidRelPath (trimSuffixG e.header.name [goSep]) = false →
        extractEntry C eD aED st e = (st, some (.invalidName e.header.name))) ∧
      (ValidRelPath (trimSuffixG e.header.name [goSep]) = true →
        (goClean (goAbs C.cwd
              (goJoin eD (trimSuffixG e.header.name [goSep]))) ≠
            trimSuffixG aED [goSep] ∧
          hasPrefixG
              (goClean (goAbs C.cwd
                (goJoin eD (trimSuffixG e.header.name [goSep]))))
              (trimSuffixG aED [goSep] ++ [goSep]) = false) →
        extractEntry C eD aED st e = (st, some (.outsidePath e.header.name))) ∧
      (ValidRelPath (trimSuffixG e.header.name [goSep]) = true →
        ¬(goClean (goAbs C.cwd
              (goJoin eD (trimSuffixG e.header.name [goSep]))) ≠
            trimSuffixG aED [goSep] ∧
          hasPrefixG
              (goClean (goAbs C.cwd
                (goJoin eD (trimSuffixG e.header.name [goSep]))))
              (trimSuffixG aED [goSep] ++ [goSep]) = false) →
        extractEntry C eD aED st e = (st, none))) := by
  intro C eD aED st e hflag
  refine ⟨extractEntry_invalid C eD aED st e,
    extractEntry_outside C eD aED st e, ?_⟩
  intro hv hesc
  rw [extractEntry_checked C eD aED st e hv hesc, hflag]

/-- Witness for C10: an unsupported-kind entry named `".."` (which
passes name validation but escapes the root) aborts extraction with the
path-outside error rather than being skipped. -/
theorem C10_checks_before_typeflag_witness :
    extractEntry ⟨fun _ => false, fun _ => true, "/w".toList, 0, 0⟩
        ("/tmp/x".toList) ("/tmp/x/".toList) ⟨[], [], []⟩
        ⟨⟨"..".toList, 0, 0o644, .other, 0⟩, []⟩ =
      (⟨[], [], []⟩, some (.outsidePath ("..".toList))) :=
  ((C10_checks_before_typeflag
      ⟨fun _ => false, fun _ => true, "/w".toList, 0, 0⟩
      ("/tmp/x".toList) ("/tmp/x/".toList) ⟨[], [], []⟩
      ⟨⟨"..".toList, 0, 0o644, .other, 0⟩, []⟩ rfl).2.1
    (by decide) (by decide))

/-! ## Truncated streams (claim C6) -/

theorem removeFS_of_none (fs : FS) (k : FsPath)
    (h : lookupFS fs k = none) : removeFS fs k = fs := by
  unfold removeFS
  rw [h]

/-- The write phase on a truncated stream: the short prefix is written
and the step aborts with the write-failure error. -/
theorem extractRegWrite_truncated (C : XCtx) (target : GoStr) (key : FsPath)
    (mode : Nat) (e : TarEntry) (stA : XState)
    (hkne : key ≠ []) (hnone : lookupFS stA.fs key = none)
    (hpar : dirExists stA.fs key.dropLast = true)
    (hshort : e.content.length < e.header.size) :
    extractRegWrite C target key mode e stA =
      (⟨insertFS stA.fs key (.file (e.content.take e.header.size) mode 0),
          stA.madeDir, stA.chowns⟩,
        some (.writeFailed target)) := by
  unfold extractRegWrite
  simp only [removeFS_of_none _ _ hnone,
    osOpenWriteFile_create _ _ _ _ hkne hnone hpar]
  simp [hshort]

/-- A regular-file entry whose payload is shorter than its declared
size: the parent handling succeeds, the short prefix is materialized,
and the step aborts with the write-failure error. -/
theorem extractRegEntry_truncated (C : XCtx) (target : GoStr) (key : FsPath)
    (mode : Nat) (e : TarEntry) (st : XState)
    (hroot : NoRootKey st.fs)
    (hpd : dirExists st.fs (absComps C.cwd (goDir target)) = true)
    (hkne : key ≠ []) (hnone : lookupFS st.fs key = none)
    (hpar : dirExists st.fs key.dropLast = true)
    (hshort : e.content.length < e.header.size) :
    (extractRegEntry C target key mode e st).2 =
        some (.writeFailed target) ∧
      lookupFS (extractRegEntry C target key mode e st).1.fs key =
        some (.file (e.content.take e.header.size) mode 0) := by
  simp only [extractRegEntry]
  by_cases hmem : goDir target ∈ st.madeDir
  · simp only [hmem, if_true]
    rw [if_neg (by simp)]
    rw [extractRegWrite_truncated C target key mode e st hkne hnone hpar hshort]
    exact ⟨rfl, lookup_insertFS_self _ _ _⟩
  · simp only [hmem, if_false]
    rw [osMkdirAll_noop st.fs _ 0o755 hroot hpd]
    show (extractRegWrite C target key mode e
          ⟨st.fs, goDir target :: st.madeDir, st.chowns⟩).2 =
        some (.writeFailed target) ∧
      lookupFS (extractRegWrite C target key mode e
          ⟨st.fs, goDir target :: st.madeDir, st.chowns⟩).1.fs key =
        some (.file (e.content.take e.header.size) mode 0)
    rw [extractRegWrite_truncated C target key mode e
      ⟨st.fs, goDir target :: st.madeDir, st.chowns⟩ hkne hnone hpar hshort]
    exact ⟨rfl, lookup_insertFS_self _ _ _⟩

/-- C6: a regular-file entry declaring a positive size whose stream ends
early is fatal — extraction reports the write-failure (truncation)
error; the file holds only the short prefix actually received, and the
operation does not succeed silently. -/
theorem C6_truncation :
    ∀ (C : XCtx) (eD aED : GoStr) (st : XState) (e : TarEntry),
      (e.header.typeflag = .reg ∨ e.header.typeflag = .regA) →
      ValidRelPath (trimSuffixG e.header.name [goSep]) = true →
      ¬(goClean (goAbs C.cwd
            (goJoin eD (trimSuffixG e.header.name [goSep]))) ≠
          trimSuffixG aED [goSep] ∧
        hasPrefixG
            (goClean (goAbs C.cwd
              (goJoin eD (trimSuffixG e.header.name [goSep]))))
            (trimSuffixG aED [goSep] ++ [goSep]) = false) →
      NoRootKey st.fs →
      dirExists st.fs
          (absComps C.cwd
            (goDir (goJoin eD (trimSuffixG e.header.name [goSep])))) = true →
      absComps C.cwd (goJoin eD (trimSuffixG e.header.name [goSep])) ≠ [] →
      lookupFS st.fs
          (absComps C.cwd (goJoin eD (trimSuffixG e.header.name [goSep]))) =
        none →
      dirExists st.fs
          (absComps C.cwd
            (goJoin eD (trimSuffixG e.header.name [goSep]))).dropLast = true →
      0 < e.header.size →
      e.content.length < e.header.size →
      ((extractEntry C eD aED st e).2 =
          some (.writeFailed (goJoin eD (trimSuffixG e.header.name [goSep]))) ∧
        lookupFS (extractEntry C eD aED st e).1.fs
            (absComps C.cwd (goJoin eD (trimSuffixG e.header.name [goSep]))) =
          some (.file (e.content.take e.header.size)
            (extractMode e.header.mode) 0)) := by
  intro C eD aED st e hflag hv hesc hroot hpd hkne hnone hpar _hsz hshort
  rw [extractEntry_checked C eD aED st e hv hesc]
  rcases hflag with hf | hf <;> rw [hf] <;>
    exact extractRegEntry_truncated C _ _ _ e st hroot hpd hkne hnone hpar hshort

/-- Witness for C6: an entry declaring size 2 with only one payload
byte, extracted into `/d`, fails with the write error and leaves the
one-byte prefix at `/d/f`. -/
theorem C6_truncation_witness :
    (extractEntry ⟨fun _ => false, fun _ => true, "/w".toList, 0, 0⟩
          ("/d".toList) ("/d/".toList)
          ⟨[(["d".toList], .dir 0o755 0)], [], []⟩
          ⟨⟨"f".toList, 2, 0o644, .reg, 0⟩, [7]⟩).2 =
        some (.writeFailed ("/d/f".toList)) ∧
      lookupFS (extractEntry ⟨fun _ => false, fun _ => true, "/w".toList, 0, 0⟩
          ("/d".toList) ("/d/".toList)
          ⟨[(["d".toList], .dir 0o755 0)], [], []⟩
          ⟨⟨"f".toList, 2, 0o644, .reg, 0⟩, [7]⟩).1.fs
          ["d".toList, "f".toList] =
        some (.file [7] 0o644 0) := by
  have H := C6_truncation ⟨fun _ => false, fun _ => true, "/w".toList, 0, 0⟩
    ("/d".toList) ("/d/".toList) ⟨[(["d".toList], .dir 0o755 0)], [], []⟩
    ⟨⟨"f".toList, 2, 0o644, .reg, 0⟩, [7]⟩
    (Or.inl rfl) (by decide) (by decide) (by rfl) (by decide) (by decide)
    (by decide) (by decide) (by decide) (by decide)
  exact H

/-! ## Best-effort ownership (claim C8) -/

def chownKey (r : GoStr × Nat × Nat × Bool) : GoStr × Nat × Nat :=
  (r.1, r.2.1, r.2.2.1)

theorem extractDirEntry_sim (cc1 cc2 : Nat → Bool) (o1 o2 : GoStr → Bool)
    (cwd : GoStr) (uid gid : Nat) (t : GoStr) (k : FsPath) (m : Nat)
    (mt : Int) (f : FS) (md : List GoStr)
    (c1 c2 : List (GoStr × Nat × Nat × Bool))
    (hc : c1.map chownKey = c2.map chownKey) :
    (extractDirEntry ⟨cc1, o1, cwd, uid, gid⟩ t k m mt ⟨f, md, c1⟩).2 =
        (extractDirEntry ⟨cc2, o2, cwd, uid, gid⟩ t k m mt ⟨f, md, c2⟩).2 ∧
      (extractDirEntry ⟨cc1, o1, cwd, uid, gid⟩ t k m mt ⟨f, md, c1⟩).1.fs =
        (extractDirEntry ⟨cc2, o2, cwd, uid, gid⟩ t k m mt ⟨f, md, c2⟩).1.fs ∧
      (extractDirEntry ⟨cc1, o1, cwd, uid, gid⟩ t k m mt ⟨f, md, c1⟩).1.madeDir =
        (extractDirEntry ⟨cc2, o2, cwd, uid, gid⟩ t k m mt ⟨f, md, c2⟩).1.madeDir ∧
      (extractDirEntry ⟨cc1, o1, cwd, uid, gid⟩ t k m mt
          ⟨f, md, c1⟩).1.chowns.map chownKey =
        (extractDirEntry ⟨cc2, o2, cwd, uid, gid⟩ t k m mt
          ⟨f, md, c2⟩).1.chowns.map chownKey := by
  unfold extractDirEntry
  cases h : (osMkdirAll f k m).2 <;>
    simp [h, doChown, chownKey] <;> first
      | exact hc
      | (split_ifs <;> simp [doChown, chownKey, hc])
theorem extractRegWrite_sim (cc1 cc2 : Nat → Bool) (o1 o2 : GoStr → Bool)
    (cwd : GoStr) (uid gid : Nat) (t : GoStr) (k : FsPath) (m : Nat)
    (e : TarEntry) (f : FS) (md : List GoStr)
    (c1 c2 : List (GoStr × Nat × Nat × Bool))
    (hc : c1.map chownKey = c2.map chownKey) :
    (extractRegWrite ⟨cc1, o1, cwd, uid, gid⟩ t k m e ⟨f, md, c1⟩).2 =
        (extractRegWrite ⟨cc2, o2, cwd, uid, gid⟩ t k m e ⟨f, md, c2⟩).2 ∧
      (extractRegWrite ⟨cc1, o1, cwd, uid, gid⟩ t k m e ⟨f, md, c1⟩).1.fs =
        (extractRegWrite ⟨cc2, o2, cwd, uid, gid⟩ t k m e ⟨f, md, c2⟩).1.fs ∧
      (extractRegWrite ⟨cc1, o1, cwd, uid, gid⟩ t k m e ⟨f, md, c1⟩).1.madeDir =
        (extractRegWrite ⟨cc2, o2, cwd, uid, gid⟩ t k m e ⟨f, md, c2⟩).1.madeDir ∧
      (extractRegWrite ⟨cc1, o1, cwd, uid, gid⟩ t k m e
          ⟨f, md, c1⟩).1.chowns.map chownKey =
        (extractRegWrite ⟨cc2, o2, cwd, uid, gid⟩ t k m e
          ⟨f, md, c2⟩).1.chowns.map chownKey := by
  unfold extractRegWrite
  cases h : (osOpenWriteFile (removeFS f k) k (e.content.take e.header.size) m).2 <;>
    simp [h, doChown, chownKey] <;> first
      | exact hc
      | (split_ifs <;> simp [doChown, chownKey, hc])

theorem extractRegEntry_sim (cc1 cc2 : Nat → Bool) (o1 o2 : GoStr → Bool)
    (cwd : GoStr) (uid gid : Nat) (t : GoStr) (k : FsPath) (m : Nat)
    (e : TarEntry) (f : FS) (md : List GoStr)
    (c1 c2 : List (GoStr × Nat × Nat × Bool))
    (hc : c1.map chownKey = c2.map chownKey) :
    (extractRegEntry ⟨cc1, o1, cwd, uid, gid⟩ t k m e ⟨f, md, c1⟩).2 =
        (extractRegEntry ⟨cc2, o2, cwd, uid, gid⟩ t k m e ⟨f, md, c2⟩).2 ∧
      (extractRegEntry ⟨cc1, o1, cwd, uid, gid⟩ t k m e ⟨f, md, c1⟩).1.fs =
        (extractRegEntry ⟨cc2, o2, cwd, uid, gid⟩ t k m e ⟨f, md, c2⟩).1.fs ∧
      (extractRegEntry ⟨cc1, o1, cwd, uid, gid⟩ t k m e ⟨f, md, c1⟩).1.madeDir =
        (extractRegEntry ⟨cc2, o2, cwd, uid, gid⟩ t k m e ⟨f, md, c2⟩).1.madeDir ∧
      (extractRegEntry ⟨cc1, o1, cwd, uid, gid⟩ t k m e
          ⟨f, md, c1⟩).1.chowns.map chownKey =
        (extractRegEntry ⟨cc2, o2, cwd, uid, gid⟩ t k m e
          ⟨f, md, c2⟩).1.chowns.map chownKey := by
  simp only [extractRegEntry]
  by_cases hmem : goDir t ∈ md <;> simp only [hmem, if_true, if_false]
  · exact extractRegWrite_sim cc1 cc2 o1 o2 cwd uid gid t k m e f md c1 c2 hc
  · cases h2 : (osMkdirAll f (absComps cwd (goDir t)) 0o755).2 <;>
      simp [h2]
    · exact hc
    · exact extractRegWrite_sim cc1 cc2 o1 o2 cwd uid gid t k m e _ _ c1 c2 hc
theorem extractEntry_sim (cc1 cc2 : Nat → Bool) (o1 o2 : GoStr → Bool)
    (cwd : GoStr) (uid gid : Nat) (eD aED : GoStr) (e : TarEntry)
    (f : FS) (md : List GoStr) (c1 c2 : List (GoStr × Nat × Nat × Bool))
    (hc : c1.map chownKey = c2.map chownKey) :
    (extractEntry ⟨cc1, o1, cwd, uid, gid⟩ eD aED ⟨f, md, c1⟩ e).2 =
        (extractEntry ⟨cc2, o2, cwd, uid, gid⟩ eD aED ⟨f, md, c2⟩ e).2 ∧
      (extractEntry ⟨cc1, o1, cwd, uid, gid⟩ eD aED ⟨f, md, c1⟩ e).1.fs =
        (extractEntry ⟨cc2, o2, cwd, uid, gid⟩ eD aED ⟨f, md, c2⟩ e).1.fs ∧
      (extractEntry ⟨cc1, o1, cwd, uid, gid⟩ eD aED ⟨f, md, c1⟩ e).1.madeDir =
        (extractEntry ⟨cc2, o2, cwd, uid, gid⟩ eD aED ⟨f, md, c2⟩ e).1.madeDir ∧
      (extractEntry ⟨cc1, o1, cwd, uid, gid⟩ eD aED
          ⟨f, md, c1⟩ e).1.chowns.map chownKey =
        (extractEntry ⟨cc2, o2, cwd, uid, gid⟩ eD aED
          ⟨f, md, c2⟩ e).1.chowns.map chownKey := by
  cases hv : ValidRelPath (trimSuffixG e.header.name [goSep])
  · rw [extractEntry_invalid _ _ _ _ _ hv, extractEntry_invalid _ _ _ _ _ hv]
    exact ⟨rfl, rfl, rfl, hc⟩
  · by_cases hesc :
      goClean (goAbs cwd (goJoin eD (trimSuffixG e.header.name [goSep]))) ≠
          trimSuffixG aED [goSep] ∧
        hasPrefixG
            (goClean (goAbs cwd
              (goJoin eD (trimSuffixG e.header.name [goSep]))))
            (trimSuffixG aED [goSep] ++ [goSep]) = false
    · rw [extractEntry_outside _ _ _ _ _ hv hesc,
        extractEntry_outside _ _ _ _ _ hv hesc]
      exact ⟨rfl, rfl, rfl, hc⟩
    · rw [extractEntry_checked _ _ _ _ _ hv hesc,
        extractEntry_checked _ _ _ _ _ hv hesc]
      cases e.header.typeflag
      · exact extractDirEntry_sim cc1 cc2 o1 o2 cwd uid gid _ _ _ _ f md c1 c2 hc
      · exact extractRegEntry_sim cc1 cc2 o1 o2 cwd uid gid _ _ _ _ f md c1 c2 hc
      · exact extractRegEntry_sim cc1 cc2 o1 o2 cwd uid gid _ _ _ _ f md c1 c2 hc
      · exact ⟨rfl, rfl, rfl, hc⟩
theorem extractLoop_sim (cc : Nat → Bool) (o1 o2 : GoStr → Bool)
    (cwd : GoStr) (uid gid : Nat) (eD aED : GoStr) :
    ∀ (es : List TarEntry) (i : Nat) (f : FS) (md : List GoStr)
      (c1 c2 : List (GoStr × Nat × Nat × Bool)),
      c1.map chownKey = c2.map chownKey →
      (extractLoop ⟨cc, o1, cwd, uid, gid⟩ eD aED i es ⟨f, md, c1⟩).2 =
          (extractLoop ⟨cc, o2, cwd, uid, gid⟩ eD aED i es ⟨f, md, c2⟩).2 ∧
        (extractLoop ⟨cc, o1, cwd, uid, gid⟩ eD aED i es ⟨f, md, c1⟩).1.fs =
          (extractLoop ⟨cc, o2, cwd, uid, gid⟩ eD aED i es ⟨f, md, c2⟩).1.fs ∧
        (extractLoop ⟨cc, o1, cwd, uid, gid⟩ eD aED i es
            ⟨f, md, c1⟩).1.madeDir =
          (extractLoop ⟨cc, o2, cwd, uid, gid⟩ eD aED i es
            ⟨f, md, c2⟩).1.madeDir ∧
        (extractLoop ⟨cc, o1, cwd, uid, gid⟩ eD aED i es
            ⟨f, md, c1⟩).1.chowns.map chownKey =
          (extractLoop ⟨cc, o2, cwd, uid, gid⟩ eD aED i es
            ⟨f, md, c2⟩).1.chowns.map chownKey := by
  intro es
  induction es with
  | nil =>
    intro i f md c1 c2 hc
    rw [extractLoop.eq_def, extractLoop.eq_def]
    cases h : cc i <;> simp [h, hc]
  | cons e rest ih =>
    intro i f md c1 c2 hc
    rw [extractLoop.eq_def, extractLoop.eq_def]
    cases h : cc i
    · simp only [h, if_false]
      have H := extractEntry_sim cc cc o1 o2 cwd uid gid eD aED e f md c1 c2 hc
      cases h1 : extractEntry ⟨cc, o1, cwd, uid, gid⟩ eD aED ⟨f, md, c1⟩ e with
      | mk st1 err1 =>
        cases h2 : extractEntry ⟨cc, o2, cwd, uid, gid⟩ eD aED ⟨f, md, c2⟩ e with
        | mk st2 err2 =>
          rw [h1, h2] at H
          obtain ⟨herr, hfs, hmd, hch⟩ := H
          simp only at herr hfs hmd hch
          subst herr
          cases err1 with
          | some err =>
            simp only []
            exact ⟨rfl, hfs, hmd, hch⟩
          | none =>
            simp only []
            obtain ⟨f1, m1, ch1⟩ := st1
            obtain ⟨f2, m2, ch2⟩ := st2
            simp only at hfs hmd hch
            subst hfs
            subst hmd
            exact ih (i + 1) f1 m1 ch1 ch2 hch
    · simp [h, hc]
theorem extractDirEntry_chowns_shape (C : XCtx) (t : GoStr) (k : FsPath)
    (m : Nat) (mt : Int) (st : XState) :
    (extractDirEntry C t k m mt st).1.chowns = st.chowns ∨
    ((0 < C.uid ∨ 0 < C.gid) ∧ ∃ b,
      (extractDirEntry C t k m mt st).1.chowns =
        (t, C.uid, C.gid, b) :: st.chowns) := by
  unfold extractDirEntry
  cases h : (osMkdirAll st.fs k m).2
  · simp [h]
  · by_cases hug : C.uid > 0 ∨ C.gid > 0
    · right
      refine ⟨hug, C.chownOk t, ?_⟩
      simp [h, hug, doChown]
      split_ifs <;> rfl
    · left
      simp [h, hug]
      split_ifs <;> rfl

theorem extractRegWrite_chowns_shape (C : XCtx) (t : GoStr) (k : FsPath)
    (m : Nat) (e : TarEntry) (stA : XState) :
    (extractRegWrite C t k m e stA).1.chowns = stA.chowns ∨
    ((0 < C.uid ∨ 0 < C.gid) ∧ ∃ b,
      (extractRegWrite C t k m e stA).1.chowns =
        (t, C.uid, C.gid, b) :: stA.chowns) := by
  unfold extractRegWrite
  cases h : (osOpenWriteFile (removeFS stA.fs k) k
      (e.content.take e.header.size) m).2
  · simp [h]
  · by_cases hug : C.uid > 0 ∨ C.gid > 0
    · by_cases hlen : e.content.length < e.header.size
      · left
        simp [h, hlen]
      · right
        refine ⟨hug, C.chownOk t, ?_⟩
        have hmin : (e.content.take e.header.size).length = e.header.size := by
          rw [List.length_take]
          omega
        simp [h, hlen, hmin, hug, doChown]
        split_ifs <;> rfl
    · left
      simp [h, hug]
      split_ifs <;> rfl

theorem extractRegEntry_chowns_shape (C : XCtx) (t : GoStr) (k : FsPath)
    (m : Nat) (e : TarEntry) (st : XState) :
    (extractRegEntry C t k m e st).1.chowns = st.chowns ∨
    ((0 < C.uid ∨ 0 < C.gid) ∧ ∃ b,
      (extractRegEntry C t k m e st).1.chowns =
        (t, C.uid, C.gid, b) :: st.chowns) := by
  simp only [extractRegEntry]
  by_cases hmem : goDir t ∈ st.madeDir <;> simp only [hmem, if_true, if_false]
  · exact extractRegWrite_chowns_shape C t k m e st
  · cases h2 : (osMkdirAll st.fs (absComps C.cwd (goDir t)) 0o755).2 <;>
      simp [h2]
    have H := extractRegWrite_chowns_shape C t k m e
      ⟨(osMkdirAll st.fs (absComps C.cwd (goDir t)) 0o755).1,
        goDir t :: st.madeDir, st.chowns⟩
    simpa using H

theorem extractEntry_chowns_shape (C : XCtx) (eD aED : GoStr) (st : XState)
    (e : TarEntry) :
    (extractEntry C eD aED st e).1.chowns = st.chowns ∨
    ((0 < C.uid ∨ 0 < C.gid) ∧ ∃ t b,
      (extractEntry C eD aED st e).1.chowns =
        (t, C.uid, C.gid, b) :: st.chowns) := by
  cases hv : ValidRelPath (trimSuffixG e.header.name [goSep])
  · rw [extractEntry_invalid _ _ _ _ _ hv]
    left
    rfl
  · by_cases hesc :
      goClean (goAbs C.cwd (goJoin eD (trimSuffixG e.header.name [goSep]))) ≠
          trimSuffixG aED [goSep] ∧
        hasPrefixG
            (goClean (goAbs C.cwd
              (goJoin eD (trimSuffixG e.header.name [goSep]))))
            (trimSuffixG aED [goSep] ++ [goSep]) = false
    · rw [extractEntry_outside _ _ _ _ _ hv hesc]
      left
      rfl
    · rw [extractEntry_checked _ _ _ _ _ hv hesc]
      cases e.header.typeflag
      · rcases extractDirEntry_chowns_shape C _ _ _ _ st with h | ⟨hug, b, h⟩
        · left; exact h
        · right; exact ⟨hug, _, b, h⟩
      · rcases extractRegEntry_chowns_shape C _ _ _ _ st with h | ⟨hug, b, h⟩
        · left; exact h
        · right; exact ⟨hug, _, b, h⟩
      · rcases extractRegEntry_chowns_shape C _ _ _ _ st with h | ⟨hug, b, h⟩
        · left; exact h
        · right; exact ⟨hug, _, b, h⟩
      · left; rfl
theorem extractLoop_chowns (C : XCtx) (eD aED : GoStr) :
    ∀ (es : List TarEntry) (i : Nat) (st : XState),
      ((C.uid = 0 ∧ C.gid = 0) →
        (extractLoop C eD aED i es st).1.chowns = st.chowns) ∧
      (∀ r ∈ (extractLoop C eD aED i es st).1.chowns,
        r ∈ st.chowns ∨
          (r.2.1 = C.uid ∧ r.2.2.1 = C.gid ∧ (0 < C.uid ∨ 0 < C.gid))) := by
  intro es
  induction es with
  | nil =>
    intro i st
    rw [extractLoop.eq_def]
    cases h : C.cancel i <;> simp [h] <;> tauto
  | cons e rest ih =>
    intro i st
    rw [extractLoop.eq_def]
    cases h : C.cancel i
    · simp only [h, Bool.false_eq_true, if_false]
      cases h1 : extractEntry C eD aED st e with
      | mk st2 err =>
        have hshape := extractEntry_chowns_shape C eD aED st e
        rw [h1] at hshape
        simp only at hshape
        cases err with
        | some err2 =>
          simp only
          constructor
          · intro hz
            rcases hshape with hs | ⟨hug, t, b, hs⟩
            · exact hs
            · exact absurd hug (by omega)
          · intro r hr
            rcases hshape with hs | ⟨hug, t, b, hs⟩
            · rw [hs] at hr
              exact Or.inl hr
            · rw [hs, List.mem_cons] at hr
              rcases hr with hr | hr
              · subst hr
                exact Or.inr ⟨rfl, rfl, hug⟩
              · exact Or.inl hr
        | none =>
          simp only
          constructor
          · intro hz
            rcases hshape with hs | ⟨hug, t, b, hs⟩
            · rw [(ih (i + 1) st2).1 hz, hs]
            · exact absurd hug (by omega)
          · intro r hr
            rcases (ih (i + 1) st2).2 r hr with hr2 | hr2
            · rcases hshape with hs | ⟨hug, t, b, hs⟩
              · rw [hs] at hr2
                exact Or.inl hr2
              · rw [hs, List.mem_cons] at hr2
                rcases hr2 with hr2 | hr2
                · subst hr2
                  exact Or.inr ⟨rfl, rfl, hug⟩
                · exact Or.inl hr2
            · exact Or.inr hr2
    · simp [h] <;> tauto

/-- C8: `os.Chown` is attempted only when the ownership pair differs
from `(0, 0)`, every attempted call carries exactly the requested
`(uid, gid)`, and a chown failure is invisible: two runs whose chown
oracles differ arbitrarily produce the same error result, the same
filesystem, the same `madeDir` set, and the same sequence of attempted
chown calls. -/
theorem C8_chown_best_effort :
    ∀ (cancel : Nat → Bool) (o1 o2 : GoStr → Bool) (cwd : GoStr)
      (uid gid : Nat) (entries : List TarEntry) (eD : GoStr) (fs0 : FS),
      (ExtractTarStream ⟨cancel, o1, cwd, uid, gid⟩ entries eD fs0).2 =
          (ExtractTarStream ⟨cancel, o2, cwd, uid, gid⟩ entries eD fs0).2 ∧
        (ExtractTarStream ⟨cancel, o1, cwd, uid, gid⟩ entries eD fs0).1.fs =
          (ExtractTarStream ⟨cancel, o2, cwd, uid, gid⟩ entries eD fs0).1.fs ∧
        (ExtractTarStream ⟨cancel, o1, cwd, uid, gid⟩ entries eD
            fs0).1.madeDir =
          (ExtractTarStream ⟨cancel, o2, cwd, uid, gid⟩ entries eD
            fs0).1.madeDir ∧
        (ExtractTarStream ⟨cancel, o1, cwd, uid, gid⟩ entries eD
            fs0).1.chowns.map chownKey =
          (ExtractTarStream ⟨cancel, o2, cwd, uid, gid⟩ entries eD
            fs0).1.chowns.map chownKey ∧
        (uid = 0 ∧ gid = 0 →
          (ExtractTarStream ⟨cancel, o1, cwd, uid, gid⟩ entries eD
            fs0).1.chowns = []) ∧
        (∀ r ∈ (ExtractTarStream ⟨cancel, o1, cwd, uid, gid⟩ entries eD
            fs0).1.chowns,
          r.2.1 = uid ∧ r.2.2.1 = gid ∧ (0 < uid ∨ 0 < gid)) := by
  intro cancel o1 o2 cwd uid gid entries eD fs0
  unfold ExtractTarStream
  have Hsim := extractLoop_sim cancel o1 o2 cwd uid gid eD
    (goClean (goAbs cwd eD) ++ [goSep]) entries 0 fs0 [] [] [] rfl
  have Hch := extractLoop_chowns ⟨cancel, o1, cwd, uid, gid⟩ eD
    (goClean (goAbs cwd eD) ++ [goSep]) entries 0 ⟨fs0, [], []⟩
  refine ⟨Hsim.1, Hsim.2.1, Hsim.2.2.1, Hsim.2.2.2, ?_, ?_⟩
  · intro hz
    exact Hch.1 hz
  · intro r hr
    rcases Hch.2 r hr with hr2 | hr2
    · simp at hr2
    · exact hr2

/-- Witness for C8: with `(uid, gid) = (7, 0)` an all-failing and an
all-succeeding chown oracle give the same error result, and with
`(uid, gid) = (0, 0)` no chown is ever attempted. -/
theorem C8_chown_best_effort_witness :
    ((ExtractTarStream ⟨fun _ => false, fun _ => false, "/w".toList, 7, 0⟩
          [⟨⟨"f".toList, 0, 0o644, .reg, 0⟩, []⟩] ("/d".toList)
          [(["d".toList], .dir 0o755 0)]).2 =
        (ExtractTarStream ⟨fun _ => false, fun _ => true, "/w".toList, 7, 0⟩
          [⟨⟨"f".toList, 0, 0o644, .reg, 0⟩, []⟩] ("/d".toList)
          [(["d".toList], .dir 0o755 0)]).2) ∧
      (ExtractTarStream ⟨fun _ => false, fun _ => true, "/w".toList, 0, 0⟩
          [⟨⟨"f".toList, 0, 0o644, .reg, 0⟩, []⟩] ("/d".toList)
          [(["d".toList], .dir 0o755 0)]).1.chowns = [] :=
  ⟨(C8_chown_best_effort (fun _ => false) (fun _ => false) (fun _ => true)
      ("/w".toList) 7 0 [⟨⟨"f".toList, 0, 0o644, .reg, 0⟩, []⟩]
      ("/d".toList) [(["d".toList], .dir 0o755 0)]).1,
    (C8_chown_best_effort (fun _ => false) (fun _ => true) (fun _ => true)
      ("/w".toList) 0 0 [⟨⟨"f".toList, 0, 0o644, .reg, 0⟩, []⟩]
      ("/d".toList) [(["d".toList], .dir 0o755 0)]).2.2.2.2.1 ⟨rfl, rfl⟩⟩

/-! ## Path string lemmas -/

theorem splitSlash_ne_nil (p : GoStr) : splitSlash p ≠ [] := by
  cases p with
  | nil => simp [splitSlash]
  | cons c rest =>
    simp only [splitSlash]
    split
    · simp
    · split
      · simp
      · simp

theorem splitSlash_append (xs ys : GoStr) :
    splitSlash (xs ++ goSep :: ys) = splitSlash xs ++ splitSlash ys := by
  induction xs with
  | nil => simp [splitSlash]
  | cons c rest ih =>
    simp only [List.cons_append, splitSlash, List.append_eq]
    by_cases h : c = goSep
    · simp [h, ih]
    · simp only [h, if_false]
      rw [ih]
      cases hs : splitSlash rest with
      | nil => exact absurd hs (splitSlash_ne_nil rest)
      | cons a t => simp

theorem splitSlash_no_sep (p : GoStr) (h : goSep ∉ p) : splitSlash p = [p] := by
  induction p with
  | nil => simp [splitSlash]
  | cons c rest ih =>
    simp only [List.mem_cons, not_or] at h
    simp only [splitSlash, ih h.2]
    rw [if_neg (fun hc => h.1 hc.symm)]

theorem splitSlash_chunks_no_sep (p : GoStr) :
    ∀ c ∈ splitSlash p, goSep ∉ c := by
  induction p with
  | nil => simp [splitSlash]
  | cons c rest ih =>
    simp only [splitSlash]
    by_cases h : c = goSep
    · simp only [h, if_true]
      intro x hx
      rcases List.mem_cons.mp hx with hx | hx
      · simp [hx]
      · exact ih x hx
    · simp only [h, if_false]
      cases hs : splitSlash rest with
      | nil => exact absurd hs (splitSlash_ne_nil rest)
      | cons a t =>
        intro x hx
        rcases List.mem_cons.mp hx with hx | hx
        · subst hx
          intro hmem
          rcases List.mem_cons.mp hmem with hm | hm
          · exact h hm.symm
          · exact ih a (by simp [hs]) hm
        · exact ih x (by simp [hs, hx])

theorem joinComps_cons (c : GoStr) (cs : List GoStr) (h : cs ≠ []) :
    joinComps (c :: cs) = c ++ goSep :: joinComps cs := by
  cases cs with
  | nil => exact absurd rfl h
  | cons d rest =>
    simp [joinComps, List.intercalate, List.intersperse]

theorem splitSlash_joinComps (cs : List GoStr) (hne : cs ≠ [])
    (h : ∀ c ∈ cs, goSep ∉ c) :
    splitSlash (joinComps cs) = cs := by
  induction cs with
  | nil => exact absurd rfl hne
  | cons c rest ih =>
    by_cases hr : rest = []
    · subst hr
      simp only [joinComps, List.intercalate]
      simp [splitSlash_no_sep c (h c (by simp))]
    · rw [joinComps_cons c rest hr, splitSlash_append,
        splitSlash_no_sep c (h c (by simp)),
        ih hr (fun x hx => h x (by simp [hx]))]
      simp
/-- A clean rooted path component: non-empty, not a dot element, and
separator-free. -/
def GoodComp (c : GoStr) : Prop :=
  c ≠ [] ∧ c ≠ ['.'] ∧ c ≠ dotdot ∧ goSep ∉ c

/-- All components clean. -/
def CleanComps (cs : List GoStr) : Prop := ∀ c ∈ cs, GoodComp c

theorem cleanLoop_true_elems (cs : List GoStr) :
    ∀ acc : List GoStr, (∀ c ∈ acc, GoodComp c) →
      (∀ c ∈ cs, goSep ∉ c) →
      ∀ c ∈ cleanLoop true cs acc, GoodComp c := by
  induction cs with
  | nil =>
    intro acc hacc _ c hc
    rw [cleanLoop.eq_def] at hc
    exact hacc c (List.mem_reverse.mp hc)
  | cons x rest ih =>
    intro acc hacc hsep c hc
    rw [cleanLoop.eq_def] at hc
    simp only at hc
    by_cases h1 : x = [] ∨ x = ['.']
    · rw [if_pos h1] at hc
      exact ih acc hacc (fun d hd => hsep d (by simp [hd])) c hc
    · rw [if_neg h1] at hc
      by_cases h2 : x = dotdot
      · rw [if_pos h2] at hc
        cases acc with
        | nil =>
          simp only [if_true] at hc
          exact ih [] (by simp) (fun d hd => hsep d (by simp [hd])) c hc
        | cons a acc2 =>
          simp only [if_true] at hc
          exact ih acc2 (fun d hd => hacc d (by simp [hd]))
            (fun d hd => hsep d (by simp [hd])) c hc
      · rw [if_neg h2] at hc
        push_neg at h1
        refine ih (x :: acc) ?_ (fun d hd => hsep d (by simp [hd])) c hc
        intro d hd
        rcases List.mem_cons.mp hd with hd | hd
        · subst hd
          exact ⟨h1.1, h1.2, h2, hsep d (by simp)⟩
        · exact hacc d hd

theorem cleanLoop_true_id (cs : List GoStr) :
    ∀ acc : List GoStr, CleanComps cs →
      cleanLoop true cs acc = acc.reverse ++ cs := by
  induction cs with
  | nil =>
    intro acc _
    rw [cleanLoop.eq_def]
    simp
  | cons x rest ih =>
    intro acc hcs
    obtain ⟨hx1, hx2, hx3, _⟩ := hcs x (by simp)
    rw [cleanLoop.eq_def]
    simp only
    rw [if_neg (by tauto), if_neg hx3]
    rw [ih (x :: acc) (fun d hd => hcs d (by simp [hd]))]
    simp
theorem goClean_abs (p : GoStr) (h : isAbsG p = true) :
    goClean p = goSep :: joinComps (cleanLoop true (splitSlash p) []) ∧
      CleanComps (cleanLoop true (splitSlash p) []) := by
  have hne : p ≠ [] := by
    intro hp
    rw [hp] at h
    simp [isAbsG, hasPrefixG] at h
  constructor
  · unfold goClean
    rw [if_neg hne]
    unfold isAbsG at h
    simp only [h, if_true]
  · exact fun c hc =>
      cleanLoop_true_elems (splitSlash p) [] (by simp)
        (splitSlash_chunks_no_sep p) c hc
theorem hasPrefixG_cons_self (t : GoStr) :
    hasPrefixG (goSep :: t) [goSep] = true := by
  simp [hasPrefixG]

theorem goClean_clean (cs : List GoStr) (h : CleanComps cs) :
    goClean (goSep :: joinComps cs) = goSep :: joinComps cs := by
  unfold goClean
  rw [if_neg (by simp)]
  simp only [hasPrefixG_cons_self, if_true]
  cases hcs : cs with
  | nil =>
    simp [joinComps, List.intercalate, splitSlash, cleanLoop]
  | cons c rest =>
    rw [← hcs]
    have hsplit : splitSlash (goSep :: joinComps cs) = [] :: cs := by
      have h0 : goSep :: joinComps cs = [] ++ goSep :: joinComps cs := rfl
      rw [h0, splitSlash_append]
      rw [splitSlash_joinComps cs (by simp [hcs])
        (fun x hx => (h x hx).2.2.2)]
      simp [splitSlash]
    rw [hsplit]
    rw [cleanLoop.eq_def]
    simp only
    rw [if_pos (Or.inl trivial)]
    rw [cleanLoop_true_id cs [] h]
    simp
theorem goJoin_abs (a b : GoStr) (ha : isAbsG a = true) :
    isAbsG (goJoin a b) = true := by
  have hne : a ≠ [] := by
    intro h
    rw [h] at ha
    simp [isAbsG, hasPrefixG] at ha
  unfold goJoin
  rw [if_pos (by simpa using hne)]
  obtain ⟨t, ht⟩ : ∃ t, a = goSep :: t := by
    unfold isAbsG hasPrefixG at ha
    rcases (by simpa using ha : [goSep] <+: a) with ⟨t, ht⟩
    exact ⟨t, ht.symm⟩
  subst ht
  unfold goClean
  rw [if_neg (by simp)]
  simp only [List.cons_append, hasPrefixG_cons_self, if_true]
  exact hasPrefixG_cons_self _

theorem absComps_abs (cwd p : GoStr) (h : isAbsG p = true) :
    absComps cwd p = cleanLoop true (splitSlash p) [] ∧
      goAbs cwd p = goSep :: joinComps (cleanLoop true (splitSlash p) []) := by
  have hstr := goClean_abs p h
  have habs : goAbs cwd p = goClean p := by
    unfold goAbs
    rw [if_pos h]
  refine ⟨?_, by rw [habs, hstr.1]⟩
  unfold absComps
  rw [habs, hstr.1]
  cases hcs : cleanLoop true (splitSlash p) [] with
  | nil => simp [joinComps, List.intercalate, splitSlash]
  | cons c rest =>
    rw [← hcs]
    have hsplit : splitSlash
        (goSep :: joinComps (cleanLoop true (splitSlash p) [])) =
        [] :: cleanLoop true (splitSlash p) [] := by
      have h0 : goSep :: joinComps (cleanLoop true (splitSlash p) []) =
          [] ++ goSep :: joinComps (cleanLoop true (splitSlash p) []) := rfl
      rw [h0, splitSlash_append]
      rw [splitSlash_joinComps _ (by simp [hcs])
        (fun x hx => ((hstr.2 x hx)).2.2.2)]
      simp [splitSlash]
    rw [hsplit]
    rw [List.filter_cons_of_neg (by simp)]
    rw [List.filter_eq_self.mpr]
    intro x hx
    simpa using (hstr.2 x hx).1
theorem trimSuffixG_concat (x : GoStr) (c : Char) :
    trimSuffixG (x ++ [c]) [c] = x := by
  unfold trimSuffixG
  rw [if_pos ⟨x, rfl⟩]
  simp

/-- The leading component of a slash-separated rendering is determined. -/
theorem sep_head_determined : ∀ (b a u v : GoStr),
    goSep ∉ b → goSep ∉ a →
    (b ++ goSep :: u) <+: (a ++ goSep :: v) → b = a ∧ u <+: v := by
  intro b
  induction b with
  | nil =>
    intro a u v _ hsa hp
    cases a with
    | nil => simpa using hp
    | cons y a2 =>
      exfalso
      simp only [List.nil_append] at hp
      rcases hp with ⟨r, hr⟩
      simp only [List.cons_append] at hr
      have : goSep = y := by
        have := congrArg (fun l => l.head?) hr
        simpa using this
      exact hsa (by simp [← this])
  | cons x b2 ih =>
    intro a u v hsb hsa hp
    cases a with
    | nil =>
      exfalso
      simp only [List.nil_append] at hp
      rcases hp with ⟨r, hr⟩
      simp only [List.cons_append] at hr
      have : x = goSep := by
        have := congrArg (fun l => l.head?) hr
        simpa using this
      exact hsb (by simp [this])
    | cons y a2 =>
      simp only [List.cons_append] at hp
      have hxy : x = y := by
        rcases hp with ⟨r, hr⟩
        have := congrArg (fun l => l.head?) hr
        simpa using this
      subst hxy
      have htail : (b2 ++ goSep :: u) <+: (a2 ++ goSep :: v) := by
        rcases hp with ⟨r, hr⟩
        exact ⟨r, by simpa using hr⟩
      have := ih a2 u v (fun hm => hsb (by simp [hm]))
        (fun hm => hsa (by simp [hm])) htail
      exact ⟨by simp [this.1], this.2⟩

/-- A rendered components list followed by a separator being a string
prefix forces a components prefix. -/
theorem join_prefix_comps : ∀ (bs as : List GoStr),
    (∀ c ∈ as, c ≠ [] ∧ goSep ∉ c) → (∀ c ∈ bs, c ≠ [] ∧ goSep ∉ c) →
    (joinComps bs ++ [goSep]) <+: joinComps as → bs <+: as := by
  intro bs
  induction bs with
  | nil => intro as _ _ _; exact List.nil_prefix
  | cons b bs2 ih =>
    intro as has hbs hp
    cases as with
    | nil =>
      exfalso
      have h0 : joinComps ([] : List GoStr) = [] := rfl
      rw [h0, List.prefix_nil] at hp
      exact absurd hp (by simp)
    | cons a as2 =>
      by_cases has2 : as2 = []
      · subst has2
        exfalso
        by_cases hbs2 : bs2 = []
        · subst hbs2
          simp only [joinComps, List.intercalate] at hp
          simp only [List.intersperse] at hp
          rcases hp with ⟨r, hr⟩
          have hsa := (has a (by simp)).2
          apply hsa
          have hr2 : b ++ [goSep] ++ r = a := by simpa using hr
          rw [← hr2]
          simp
        · rw [joinComps_cons b bs2 hbs2] at hp
          simp only [joinComps, List.intercalate, List.intersperse] at hp
          rcases hp with ⟨r, hr⟩
          have hsa := (has a (by simp)).2
          apply hsa
          have hr2 : b ++ goSep :: (List.intersperse [goSep] bs2).flatten ++
              [goSep] ++ r = a := by simpa using hr
          rw [← hr2]
          simp
      · rw [joinComps_cons a as2 has2] at hp
        by_cases hbs2 : bs2 = []
        · subst hbs2
          have hp2 : (b ++ goSep :: []) <+: (a ++ goSep :: joinComps as2) := by
            simpa [joinComps, List.intercalate, List.intersperse] using hp
          have H := sep_head_determined b a [] (joinComps as2)
            (hbs b (by simp)).2 (has a (by simp)).2 hp2
          rw [H.1]
          exact List.cons_prefix_cons.mpr ⟨rfl, List.nil_prefix⟩
        · rw [joinComps_cons b bs2 hbs2] at hp
          have hp2 : (b ++ goSep :: (joinComps bs2 ++ [goSep])) <+:
              (a ++ goSep :: joinComps as2) := by
            simpa using hp
          have H := sep_head_determined b a (joinComps bs2 ++ [goSep])
            (joinComps as2) (hbs b (by simp)).2 (has a (by simp)).2 hp2
          rw [H.1]
          exact List.cons_prefix_cons.mpr
            ⟨rfl, ih as2 (fun c hc => has c (by simp [hc]))
              (fun c hc => hbs c (by simp [hc])) H.2⟩

theorem joinComps_eq_nil (cs : List GoStr) (h : ∀ c ∈ cs, c ≠ []) :
    joinComps cs = [] ↔ cs = [] := by
  cases cs with
  | nil => simp [joinComps, List.intercalate]
  | cons c cs2 =>
    constructor
    · intro hj
      exfalso
      by_cases h2 : cs2 = []
      · subst h2
        have : joinComps [c] = c := by
          simp [joinComps, List.intercalate, List.intersperse]
        rw [this] at hj
        exact h c (by simp) hj
      · rw [joinComps_cons c cs2 h2] at hj
        rcases List.append_eq_nil.mp hj with ⟨_, h3⟩
        simp at h3
    · intro hc
      simp at hc

/-- Rendered clean component lists are equal only when the lists are. -/
theorem joinComps_inj (as bs : List GoStr)
    (has : ∀ c ∈ as, c ≠ [] ∧ goSep ∉ c)
    (hbs : ∀ c ∈ bs, c ≠ [] ∧ goSep ∉ c)
    (h : joinComps as = joinComps bs) : as = bs := by
  by_cases ha : as = []
  · subst ha
    have h0 : joinComps ([] : List GoStr) = [] := rfl
    rw [h0] at h
    exact ((joinComps_eq_nil bs (fun c hc => (hbs c hc).1)).mp h.symm).symm
  · by_cases hb : bs = []
    · subst hb
      have h0 : joinComps ([] : List GoStr) = [] := rfl
      rw [h0] at h
      exact absurd ((joinComps_eq_nil as (fun c hc => (has c hc).1)).mp h) ha
    · have h2 := splitSlash_joinComps as ha (fun c hc => (has c hc).2)
      rw [h] at h2
      rw [splitSlash_joinComps bs hb (fun c hc => (hbs c hc).2)] at h2
      exact h2.symm
/-! ## Confinement of the extraction step (claim C1) -/

/-- Keys whose canonicalization must stay inside the extraction root:
the prefixes of the root key.  `ChainPresent fs ds` says the extraction
root and all its ancestors exist, as they do on a real filesystem when
the extraction root exists. -/
def ChainPresent (fs : FS) (ds : FsPath) : Prop :=
  ∀ n, n ≤ ds.length → ds.take n ≠ [] → lookupFS fs (ds.take n) ≠ none

instance (fs : FS) (ds : FsPath) : Decidable (ChainPresent fs ds) :=
  Nat.decidableBallLE ds.length _

theorem ChainPresent_lookup (fs : FS) (ds p : FsPath)
    (hch : ChainPresent fs ds) (hp : p <+: ds) (hne : p ≠ []) :
    lookupFS fs p ≠ none := by
  have := hch p.length (hp.length_le) ?_
  · rwa [← List.prefix_iff_eq_take.mp hp] at this
  · rw [← List.prefix_iff_eq_take.mp hp]
    exact hne

theorem ChainPresent_of_lookup_eq (fs fs2 : FS) (ds : FsPath)
    (h : ∀ p, p <+: ds → p ≠ [] → lookupFS fs2 p = lookupFS fs p)
    (hch : ChainPresent fs ds) : ChainPresent fs2 ds := by
  intro n hn hne
  rw [h (ds.take n) (List.take_prefix n ds) hne]
  exact hch n hn hne

theorem osMkdirAll_fs_id (fs : FS) (k : FsPath) (m : Nat)
    (h : k = [] ∨ lookupFS fs k ≠ none) : (osMkdirAll fs k m).1 = fs := by
  rw [osMkdirAll_eq]
  cases hl : lookupFS fs k with
  | some n => cases n <;> rfl
  | none =>
    rcases h with h | h
    · simp [h]
    · exact absurd hl h

theorem osMkdirAll_preserves (fs : FS) (k : FsPath) (m : Nat) (k2 : FsPath)
    (h : lookupFS fs k2 ≠ none) :
    lookupFS (osMkdirAll fs k m).1 k2 = lookupFS fs k2 := by
  induction k using List.reverseRecOn with
  | nil =>
    rw [osMkdirAll_eq]
    cases hl : lookupFS fs [] with
    | some n => cases n <;> rfl
    | none => simp
  | append_singleton xs x ih =>
    rw [osMkdirAll_eq]
    cases hl : lookupFS fs (xs ++ [x]) with
    | some n => cases n <;> rfl
    | none =>
      have hne : xs ++ [x] ≠ [] := by simp
      simp only [hne, if_false, List.dropLast_concat]
      have hk2 : k2 ≠ xs ++ [x] := by
        intro hk
        rw [hk] at h
        exact h hl
      split
      · rw [lookup_insertFS_ne _ _ _ _ hk2]
        exact ih
      · exact ih

theorem osMkdirAll_confined (fs : FS) (k : FsPath) (m : Nat) (q : FsPath)
    (hq : q ≠ []) (hch : ∀ p, p <+: q → p ≠ [] → lookupFS fs p ≠ none) :
    ∀ k2, q <+: k → ¬ q <+: k2 →
      lookupFS (osMkdirAll fs k m).1 k2 = lookupFS fs k2 := by
  induction k using List.reverseRecOn with
  | nil =>
    intro k2 hqk _
    rw [List.prefix_nil] at hqk
    exact absurd hqk hq
  | append_singleton xs x ih =>
    intro k2 hqk hk2
    rw [osMkdirAll_eq]
    cases hl : lookupFS fs (xs ++ [x]) with
    | some n => cases n <;> rfl
    | none =>
      have hne : xs ++ [x] ≠ [] := by simp
      simp only [hne, if_false, List.dropLast_concat]
      have hqk2 : q ≠ xs ++ [x] := by
        intro hk
        exact (hch q List.prefix_rfl hq) (by rwa [hk])
      have hqxs : q <+: xs := by
        rcases List.prefix_concat_iff.mp hqk with h | h
        · exact absurd h hqk2
        · exact h
      have hk2ne : k2 ≠ xs ++ [x] := by
        intro hk
        exact hk2 (hk ▸ hqk)
      split
      · rw [lookup_insertFS_ne _ _ _ _ hk2ne]
        exact ih k2 hqxs hk2
      · exact ih k2 hqxs hk2

theorem lookup_chmodFS_ne (fs : FS) (k k2 : FsPath) (m : Nat) (h : k2 ≠ k) :
    lookupFS (chmodFS fs k m) k2 = lookupFS fs k2 := by
  unfold chmodFS
  split
  · exact lookup_insertFS_ne _ _ _ _ h
  · exact lookup_insertFS_ne _ _ _ _ h
  · rfl

theorem lookup_chtimesFS_ne (fs : FS) (k k2 : FsPath) (t : Int) (h : k2 ≠ k) :
    lookupFS (chtimesFS fs k t) k2 = lookupFS fs k2 := by
  unfold chtimesFS
  split
  · exact lookup_insertFS_ne _ _ _ _ h
  · exact lookup_insertFS_ne _ _ _ _ h
  · rfl

theorem lookup_chmodFS_keeps (fs : FS) (k : FsPath) (m : Nat)
    (h : lookupFS fs k ≠ none) : lookupFS (chmodFS fs k m) k ≠ none := by
  unfold chmodFS
  split
  · rw [lookup_insertFS_self]
    simp
  · rw [lookup_insertFS_self]
    simp
  · exact h

theorem lookup_chtimesFS_keeps (fs : FS) (k : FsPath) (t : Int)
    (h : lookupFS fs k ≠ none) : lookupFS (chtimesFS fs k t) k ≠ none := by
  unfold chtimesFS
  split
  · rw [lookup_insertFS_self]
    simp
  · rw [lookup_insertFS_self]
    simp
  · exact h

theorem lookup_openWrite_ne (fs : FS) (k k2 : FsPath) (c : List Nat)
    (m : Nat) (h : k2 ≠ k) :
    lookupFS (osOpenWriteFile fs k c m).1 k2 = lookupFS fs k2 := by
  unfold osOpenWriteFile
  split
  · rfl
  · exact lookup_insertFS_ne _ _ _ _ h
  · split
    · rfl
    · split
      · exact lookup_insertFS_ne _ _ _ _ h
      · rfl

theorem openWrite_success_some (fs : FS) (k : FsPath) (c : List Nat)
    (m : Nat) (h : (osOpenWriteFile fs k c m).2 = true) :
    lookupFS (osOpenWriteFile fs k c m).1 k ≠ none := by
  unfold osOpenWriteFile at h ⊢
  cases hl : lookupFS fs k with
  | some n =>
    cases n with
    | dir m0 t0 =>
      simp only [hl] at h
      simp at h
    | file c0 m0 t0 =>
      simp only [hl, lookup_insertFS_self]
      simp
  | none =>
    simp only [hl] at h ⊢
    cases k with
    | nil => simp at h
    | cons a t =>
      by_cases hd : dirExists fs ((a :: t).dropLast) = true
      · simp only [hd, if_true, lookup_insertFS_self]
        simp
      · simp only [hd, Bool.false_eq_true, if_false] at h

theorem openWrite_fail_id (fs : FS) (k : FsPath) (c : List Nat) (m : Nat)
    (h : (osOpenWriteFile fs k c m).2 = false) :
    (osOpenWriteFile fs k c m).1 = fs := by
  unfold osOpenWriteFile at h ⊢
  cases hl : lookupFS fs k with
  | some n =>
    cases n with
    | dir m0 t0 =>
      simp only [hl]
    | file c0 m0 t0 =>
      simp only [hl] at h
      simp at h
  | none =>
    simp only [hl] at h ⊢
    cases k with
    | nil => rfl
    | cons a t =>
      by_cases hd : dirExists fs ((a :: t).dropLast) = true
      · simp only [hd, if_true] at h
        simp at h
      · simp only [hd, Bool.false_eq_true, if_false]
theorem joinComps_concat (xs : List GoStr) (c : GoStr) :
    joinComps (xs ++ [c]) =
      if xs = [] then c else joinComps xs ++ goSep :: c := by
  induction xs with
  | nil => simp [joinComps, List.intercalate]
  | cons d xs2 ih =>
    rw [List.cons_append, joinComps_cons d (xs2 ++ [c]) (by simp), ih]
    by_cases h : xs2 = []
    · subst h
      simp [joinComps, List.intercalate]
    · rw [if_neg h, if_neg (by simp), joinComps_cons d xs2 h]
      simp

theorem takeWhile_all_append (q : Char → Bool) (u : GoStr) (x : Char)
    (v : GoStr) (hu : ∀ a ∈ u, q a = true) (hx : q x = false) :
    (u ++ x :: v).takeWhile q = u := by
  induction u with
  | nil => simp [List.takeWhile, hx]
  | cons a u2 ih =>
    simp only [List.cons_append, List.takeWhile]
    rw [hu a (by simp)]
    simp only [List.cons.injEq, true_and]
    exact ih (fun b hb => hu b (by simp [hb]))

theorem splitSlash_sep_join (cs : List GoStr) (hne : cs ≠ [])
    (h : ∀ c ∈ cs, goSep ∉ c) :
    splitSlash (goSep :: joinComps cs) = [] :: cs := by
  have h0 : goSep :: joinComps cs = [] ++ goSep :: joinComps cs := rfl
  rw [h0, splitSlash_append, splitSlash_joinComps cs hne h]
  simp [splitSlash]

theorem cleanLoop_true_append (cs : List GoStr) :
    ∀ (rest acc : List GoStr), CleanComps cs →
      cleanLoop true (cs ++ rest) acc =
        cleanLoop true rest (cs.reverse ++ acc) := by
  induction cs with
  | nil => intro rest acc _; simp
  | cons x cs2 ih =>
    intro rest acc hcs
    obtain ⟨hx1, hx2, hx3, _⟩ := hcs x (by simp)
    rw [List.cons_append, cleanLoop.eq_def]
    simp only
    rw [if_neg (by tauto), if_neg hx3]
    rw [ih rest (x :: acc) (fun d hd => hcs d (by simp [hd]))]
    simp

theorem goClean_clean_slash (cs : List GoStr) (hne : cs ≠ [])
    (h : CleanComps cs) :
    goClean (goSep :: (joinComps cs ++ [goSep])) = goSep :: joinComps cs := by
  unfold goClean
  rw [if_neg (by simp)]
  simp only [hasPrefixG_cons_self, if_true]
  have hsplit : splitSlash (goSep :: (joinComps cs ++ [goSep])) =
      ([] :: cs) ++ [[]] := by
    have h0 : goSep :: (joinComps cs ++ [goSep]) =
        (goSep :: joinComps cs) ++ goSep :: [] := by simp
    rw [h0, splitSlash_append,
      splitSlash_sep_join cs hne (fun c hc => (h c hc).2.2.2)]
    simp [splitSlash]
  rw [hsplit, List.cons_append]
  rw [cleanLoop.eq_def]
  simp only
  rw [if_pos (Or.inl trivial)]
  rw [cleanLoop_true_append cs [[]] [] h]
  rw [cleanLoop.eq_def]
  simp only
  rw [if_pos (Or.inl trivial)]
  rw [cleanLoop.eq_def]
  simp

theorem goDir_clean (cs : List GoStr) (h : CleanComps cs) :
    goDir (goSep :: joinComps cs) = goSep :: joinComps cs.dropLast := by
  induction cs using List.reverseRecOn with
  | nil =>
    show goDir [goSep] = goSep :: joinComps []
    rfl
  | append_singleton init c _ =>
    have hc : GoodComp c := h c (by simp)
    have hinit : CleanComps init := fun d hd => h d (by simp [hd])
    rw [joinComps_concat, List.dropLast_concat]
    by_cases hi : init = []
    · subst hi
      rw [if_pos rfl]
      simp only [goDir, goSplit]
      have hrev : (goSep :: c).reverse = c.reverse ++ goSep :: [] := by simp
      rw [hrev]
      rw [show (fun x => decide ¬x = goSep) = (fun x => !decide (x = goSep))
        from by funext x; simp]
      rw [takeWhile_all_append _ c.reverse goSep []
        (fun a ha => by
          simp only [Bool.not_eq_true']
          exact decide_eq_false
            (fun hax => hc.2.2.2 (by rw [← hax]; exact List.mem_reverse.mp ha)))
        (by simp)]
      rw [List.drop_left]
      show goClean [goSep] = goSep :: joinComps []
      rfl
    · rw [if_neg hi]
      simp only [goDir, goSplit]
      have hshape : goSep :: (joinComps init ++ goSep :: c) =
          (goSep :: joinComps init) ++ goSep :: c := by simp
      rw [hshape]
      have hrev : ((goSep :: joinComps init) ++ goSep :: c).reverse =
          c.reverse ++ goSep :: (goSep :: joinComps init).reverse := by simp
      rw [hrev]
      rw [show (fun x => decide ¬x = goSep) = (fun x => !decide (x = goSep))
        from by funext x; simp]
      rw [takeWhile_all_append _ c.reverse goSep _
        (fun a ha => by
          simp only [Bool.not_eq_true']
          exact decide_eq_false
            (fun hax => hc.2.2.2 (by rw [← hax]; exact List.mem_reverse.mp ha)))
        (by simp)]
      rw [List.drop_left]
      have : (goSep :: (goSep :: joinComps init).reverse).reverse =
          (goSep :: joinComps init) ++ [goSep] := by simp
      rw [this]
      have hshape2 : (goSep :: joinComps init) ++ [goSep] =
          goSep :: (joinComps init ++ [goSep]) := by simp
      rw [hshape2]
      exact goClean_clean_slash init hi hinit

theorem absComps_clean (cwd : GoStr) (cs : List GoStr) (h : CleanComps cs) :
    absComps cwd (goSep :: joinComps cs) = cs := by
  have habs : isAbsG (goSep :: joinComps cs) = true := hasPrefixG_cons_self _
  unfold absComps goAbs
  rw [if_pos habs, goClean_clean cs h]
  cases hcs : cs with
  | nil => simp [joinComps, List.intercalate, splitSlash]
  | cons c rest =>
    rw [← hcs]
    rw [splitSlash_sep_join cs (by simp [hcs]) (fun c hc => (h c hc).2.2.2)]
    rw [List.filter_cons_of_neg (by simp)]
    rw [List.filter_eq_self.mpr]
    intro x hx
    simpa using (h x hx).1
/-- When the containment check of lines 130-142 passes, the canonical
components of the extraction directory are a prefix of those of the
target. -/
theorem checked_prefix (cwd eD name : GoStr) (heD : isAbsG eD = true)
    (hpass : ¬(goClean (goAbs cwd (goJoin eD name)) ≠
        trimSuffixG (goClean (goAbs cwd eD) ++ [goSep]) [goSep] ∧
      hasPrefixG (goClean (goAbs cwd (goJoin eD name)))
        (trimSuffixG (goClean (goAbs cwd eD) ++ [goSep]) [goSep] ++ [goSep])
        = false)) :
    absComps cwd eD <+: absComps cwd (goJoin eD name) := by
  have htg : isAbsG (goJoin eD name) = true := goJoin_abs eD name heD
  have hD := absComps_abs cwd eD heD
  have hDg := goClean_abs eD heD
  have hT := absComps_abs cwd (goJoin eD name) htg
  have hTg := goClean_abs (goJoin eD name) htg
  set ds := cleanLoop true (splitSlash eD) [] with hds
  set as := cleanLoop true (splitSlash (goJoin eD name)) [] with has
  have hbase : trimSuffixG (goClean (goAbs cwd eD) ++ [goSep]) [goSep] =
      goSep :: joinComps ds := by
    rw [hD.2, goClean_clean ds hDg.2]
    exact trimSuffixG_concat _ _
  have htarget : goClean (goAbs cwd (goJoin eD name)) =
      goSep :: joinComps as := by
    rw [hT.2, goClean_clean as hTg.2]
  rw [hD.1, hT.1]
  rw [not_and_or] at hpass
  rcases hpass with hpass | hpass
  · push_neg at hpass
    rw [htarget, hbase] at hpass
    have heq : as = ds :=
      joinComps_inj as ds
        (fun c hc => ⟨(hTg.2 c hc).1, (hTg.2 c hc).2.2.2⟩)
        (fun c hc => ⟨(hDg.2 c hc).1, (hDg.2 c hc).2.2.2⟩)
        (by simpa using hpass)
    rw [heq]
  · have hpre : hasPrefixG (goClean (goAbs cwd (goJoin eD name)))
        (trimSuffixG (goClean (goAbs cwd eD) ++ [goSep]) [goSep] ++ [goSep])
        = true := by
      cases hb : hasPrefixG (goClean (goAbs cwd (goJoin eD name)))
          (trimSuffixG (goClean (goAbs cwd eD) ++ [goSep]) [goSep] ++ [goSep])
      · exact absurd hb hpass
      · rfl
    rw [htarget, hbase] at hpre
    unfold hasPrefixG at hpre
    have hpre2 : (goSep :: (joinComps ds ++ [goSep])) <+:
        (goSep :: joinComps as) := by
      simpa using hpre
    have hpre3 : (joinComps ds ++ [goSep]) <+: joinComps as :=
      (List.cons_prefix_cons.mp hpre2).2
    exact join_prefix_comps ds as
      (fun c hc => ⟨(hTg.2 c hc).1, (hTg.2 c hc).2.2.2⟩)
      (fun c hc => ⟨(hDg.2 c hc).1, (hDg.2 c hc).2.2.2⟩)
      hpre3
theorem fs_ite_doChown (c : Prop) [Decidable c] (C : XCtx) (s : XState)
    (t : GoStr) : (if c then doChown C s t else s).fs = s.fs := by
  split <;> rfl

theorem prefix_dropLast (ds k : FsPath) (h : ds <+: k) :
    ds = k ∨ ds <+: k.dropLast := by
  rcases h with ⟨r, hr⟩
  cases r with
  | nil => left; rw [← hr, List.append_nil]
  | cons a r2 =>
    right
    rw [← hr, List.dropLast_append_cons]
    exact ⟨(a :: r2).dropLast, rfl⟩

/-- The write phase touches the filesystem only at the target key, and
on success the target key holds a node. -/
theorem extractRegWrite_confined (C : XCtx) (t : GoStr) (k : FsPath)
    (mode : Nat) (e : TarEntry) (stA : XState) :
    (∀ k2, k2 ≠ k →
      lookupFS (extractRegWrite C t k mode e stA).1.fs k2 =
        lookupFS stA.fs k2) ∧
    ((extractRegWrite C t k mode e stA).2 = none →
      lookupFS (extractRegWrite C t k mode e stA).1.fs k ≠ none) := by
  simp only [extractRegWrite]
  by_cases hOf : (osOpenWriteFile (removeFS stA.fs k) k
      (e.content.take e.header.size) mode).2 = false
  · rw [if_pos hOf]
    constructor
    · intro k2 hk2
      show lookupFS (osOpenWriteFile (removeFS stA.fs k) k
          (e.content.take e.header.size) mode).1 k2 = lookupFS stA.fs k2
      rw [lookup_openWrite_ne _ _ _ _ _ hk2, lookup_removeFS_ne _ _ _ hk2]
    · intro hnone
      simp at hnone
  · rw [if_neg hOf]
    have hOt : (osOpenWriteFile (removeFS stA.fs k) k
        (e.content.take e.header.size) mode).2 = true := by
      cases hb : (osOpenWriteFile (removeFS stA.fs k) k
          (e.content.take e.header.size) mode).2
      · exact absurd hb hOf
      · rfl
    by_cases hTr : e.content.length < e.header.size
    · rw [if_pos hTr]
      constructor
      · intro k2 hk2
        show lookupFS (osOpenWriteFile (removeFS stA.fs k) k
            (e.content.take e.header.size) mode).1 k2 = lookupFS stA.fs k2
        rw [lookup_openWrite_ne _ _ _ _ _ hk2, lookup_removeFS_ne _ _ _ hk2]
      · intro hnone
        simp at hnone
    · rw [if_neg hTr]
      by_cases hSh : e.header.size > 0 ∧
          (e.content.take e.header.size).length ≠ e.header.size
      · rw [if_pos hSh]
        constructor
        · intro k2 hk2
          show lookupFS (osOpenWriteFile (removeFS stA.fs k) k
              (e.content.take e.header.size) mode).1 k2 = lookupFS stA.fs k2
          rw [lookup_openWrite_ne _ _ _ _ _ hk2, lookup_removeFS_ne _ _ _ hk2]
        · intro hnone
          simp at hnone
      · rw [if_neg hSh]
        by_cases hMt : e.header.modTime ≠ 0
        · rw [if_pos hMt]
          constructor
          · intro k2 hk2
            dsimp only
            rw [lookup_chtimesFS_ne _ _ _ _ hk2, fs_ite_doChown]
            dsimp only
            rw [lookup_chmodFS_ne _ _ _ _ hk2,
              lookup_openWrite_ne _ _ _ _ _ hk2, lookup_removeFS_ne _ _ _ hk2]
          · intro _
            dsimp only
            rw [fs_ite_doChown]
            dsimp only
            apply lookup_chtimesFS_keeps
            apply lookup_chmodFS_keeps
            exact openWrite_success_some _ _ _ _ hOt
        · rw [if_neg hMt]
          constructor
          · intro k2 hk2
            dsimp only
            rw [fs_ite_doChown]
            dsimp only
            rw [lookup_chmodFS_ne _ _ _ _ hk2,
              lookup_openWrite_ne _ _ _ _ _ hk2, lookup_removeFS_ne _ _ _ hk2]
          · intro _
            dsimp only
            rw [fs_ite_doChown]
            dsimp only
            apply lookup_chmodFS_keeps
            exact openWrite_success_some _ _ _ _ hOt
/-- A directory entry only touches keys under the extraction root when
its target key lies under the root whose ancestor chain exists. -/
theorem extractDirEntry_confined (C : XCtx) (t : GoStr) (k : FsPath)
    (mode : Nat) (mt : Int) (st : XState) (ds : FsPath)
    (hds : ds ≠ []) (hdk : ds <+: k) (hch : ChainPresent st.fs ds) :
    (∀ k2, ¬ ds <+: k2 →
      lookupFS (extractDirEntry C t k mode mt st).1.fs k2 =
        lookupFS st.fs k2) ∧
    ChainPresent (extractDirEntry C t k mode mt st).1.fs ds := by
  have hchain : ∀ p, p <+: ds → p ≠ [] → lookupFS st.fs p ≠ none :=
    fun p hp hne => ChainPresent_lookup st.fs ds p hch hp hne
  have hconf : ∀ k2, ¬ ds <+: k2 →
      lookupFS (osMkdirAll st.fs k mode).1 k2 = lookupFS st.fs k2 :=
    fun k2 hk2 => osMkdirAll_confined st.fs k mode ds hds hchain k2 hdk hk2
  have hpres : ChainPresent (osMkdirAll st.fs k mode).1 ds := by
    intro n hn hne
    rw [osMkdirAll_preserves st.fs k mode _ (hch n hn hne)]
    exact hch n hn hne
  simp only [extractDirEntry]
  by_cases hr : (osMkdirAll st.fs k mode).2 = false
  · rw [if_pos hr]
    exact ⟨hconf, hpres⟩
  · rw [if_neg hr]
    by_cases hMt : mt ≠ 0
    · rw [if_pos hMt]
      constructor
      · intro k2 hk2
        dsimp only
        rw [lookup_chtimesFS_ne _ _ _ _ (fun h => hk2 (by rw [h]; exact hdk)),
          fs_ite_doChown]
        exact hconf k2 hk2
      · intro n hn hne
        dsimp only
        by_cases hpk : ds.take n = k
        · rw [hpk]
          apply lookup_chtimesFS_keeps
          rw [fs_ite_doChown]
          dsimp only
          have h1 := hpres n hn hne
          rwa [hpk] at h1
        · rw [lookup_chtimesFS_ne _ _ _ _ hpk, fs_ite_doChown]
          exact hpres n hn hne
    · rw [if_neg hMt]
      constructor
      · intro k2 hk2
        rw [fs_ite_doChown]
        exact hconf k2 hk2
      · intro n hn hne
        rw [fs_ite_doChown]
        exact hpres n hn hne

/-- A regular-file entry only touches keys under the extraction root
when its target key lies under the root whose ancestor chain exists,
and chain keys survive it. -/
theorem extractRegEntry_confined (C : XCtx) (t : GoStr) (k : FsPath)
    (mode : Nat) (e : TarEntry) (st : XState) (ds : FsPath)
    (hds : ds ≠ []) (hdk : ds <+: k)
    (hparent : absComps C.cwd (goDir t) = k.dropLast)
    (hch : ChainPresent st.fs ds) :
    (∀ k2, ¬ ds <+: k2 →
      lookupFS (extractRegEntry C t k mode e st).1.fs k2 =
        lookupFS st.fs k2) ∧
    ((extractRegEntry C t k mode e st).2 = none →
      ChainPresent (extractRegEntry C t k mode e st).1.fs ds) := by
  have hchain : ∀ p, p <+: ds → p ≠ [] → lookupFS st.fs p ≠ none :=
    fun p hp hne => ChainPresent_lookup st.fs ds p hch hp hne
  -- the parent `MkdirAll` leaves keys outside the root and chain keys alone
  have hmk : ∀ fs2 : FS, ChainPresent fs2 ds →
      (∀ k2, ¬ ds <+: k2 →
        lookupFS (osMkdirAll fs2 k.dropLast 0o755).1 k2 = lookupFS fs2 k2) ∧
      ChainPresent (osMkdirAll fs2 k.dropLast 0o755).1 ds := by
    intro fs2 hch2
    have hpres : ChainPresent (osMkdirAll fs2 k.dropLast 0o755).1 ds := by
      intro n hn hne
      rw [osMkdirAll_preserves fs2 k.dropLast 0o755 _ (hch2 n hn hne)]
      exact hch2 n hn hne
    rcases prefix_dropLast ds k hdk with hcase | hcase
    · -- the target key is the root itself: its parent chain already exists
      have hid : (osMkdirAll fs2 k.dropLast 0o755).1 = fs2 := by
        apply osMkdirAll_fs_id
        by_cases hnil : k.dropLast = []
        · exact Or.inl hnil
        · refine Or.inr (ChainPresent_lookup fs2 ds _ hch2 ?_ hnil)
          rw [← hcase]
          exact List.dropLast_prefix ds
      rw [hid]
      exact ⟨fun k2 _ => rfl, hch2⟩
    · exact ⟨fun k2 hk2 =>
        osMkdirAll_confined fs2 k.dropLast 0o755 ds hds
          (fun p hp hne => ChainPresent_lookup fs2 ds p hch2 hp hne)
          k2 hcase hk2, hpres⟩
  have hW := fun stA => extractRegWrite_confined C t k mode e stA
  simp only [extractRegEntry, hparent]
  by_cases hmem : goDir t ∈ st.madeDir
  · rw [if_pos hmem]
    dsimp only
    rw [if_neg (by simp)]
    constructor
    · intro k2 hk2
      rw [(hW st).1 k2 (fun h => hk2 (h ▸ hdk))]
    · intro hsucc
      intro n hn hne
      by_cases hpk : ds.take n = k
      · rw [hpk]
        exact (hW st).2 hsucc
      · rw [(hW st).1 _ hpk]
        exact hch n hn hne
  · rw [if_neg hmem]
    by_cases hr2 : (osMkdirAll st.fs k.dropLast 0o755).2 = true
    · rw [if_pos hr2]
      dsimp only
      rw [if_neg (by simp)]
      set stM : XState :=
        ⟨(osMkdirAll st.fs k.dropLast 0o755).1, goDir t :: st.madeDir,
          st.chowns⟩ with hstM
      have hchM : ChainPresent stM.fs ds := (hmk st.fs hch).2
      constructor
      · intro k2 hk2
        rw [(hW stM).1 k2 (fun h => hk2 (h ▸ hdk))]
        exact (hmk st.fs hch).1 k2 hk2
      · intro hsucc
        intro n hn hne
        by_cases hpk : ds.take n = k
        · rw [hpk]
          exact (hW stM).2 hsucc
        · rw [(hW stM).1 _ hpk]
          exact hchM n hn hne
    · rw [if_neg hr2]
      dsimp only
      rw [if_pos rfl]
      constructor
      · intro k2 hk2
        exact (hmk st.fs hch).1 k2 hk2
      · intro hsucc
        simp at hsucc
/-- The canonical parent key of a joined target is the target key
without its last component. -/
theorem target_parent_key (cwd eD name : GoStr) (heD : isAbsG eD = true) :
    absComps cwd (goDir (goJoin eD name)) =
      (absComps cwd (goJoin eD name)).dropLast := by
  have hne : eD ≠ [] := by
    intro h
    rw [h] at heD
    simp [isAbsG, hasPrefixG] at heD
  have habs : isAbsG (eD ++ goSep :: name) = true := by
    obtain ⟨t, ht⟩ : ∃ t, eD = goSep :: t := by
      unfold isAbsG hasPrefixG at heD
      rcases (by simpa using heD : [goSep] <+: eD) with ⟨t, ht⟩
      exact ⟨t, ht.symm⟩
    subst ht
    exact hasPrefixG_cons_self _
  have hj : goJoin eD name = goClean (eD ++ goSep :: name) := by
    unfold goJoin
    rw [if_pos (by simpa using hne)]
  have hg := goClean_abs (eD ++ goSep :: name) habs
  have hdl : CleanComps
      (cleanLoop true (splitSlash (eD ++ goSep :: name)) []).dropLast :=
    fun c hc => hg.2 c ((List.dropLast_sublist _).subset hc)
  rw [hj, hg.1, goDir_clean _ hg.2, absComps_clean cwd _ hdl,
    absComps_clean cwd _ hg.2]

/-- One checked extraction step stays inside the extraction root: keys
not under the root are untouched, and on success the root's ancestor
chain survives. -/
theorem extractEntry_confined (C : XCtx) (eD : GoStr) (st : XState)
    (e : TarEntry) (heD : isAbsG eD = true)
    (hch : ChainPresent st.fs (absComps C.cwd eD)) :
    (∀ k2, ¬ absComps C.cwd eD <+: k2 →
      lookupFS
        (extractEntry C eD (goClean (goAbs C.cwd eD) ++ [goSep]) st e).1.fs
        k2 = lookupFS st.fs k2) ∧
    ((extractEntry C eD (goClean (goAbs C.cwd eD) ++ [goSep]) st e).2 =
        none →
      ChainPresent
        (extractEntry C eD (goClean (goAbs C.cwd eD) ++ [goSep]) st e).1.fs
        (absComps C.cwd eD)) := by
  by_cases hds : absComps C.cwd eD = []
  · constructor
    · intro k2 hk2
      exact absurd (hds ▸ List.nil_prefix) hk2
    · intro _ n _ hne
      rw [hds] at hne
      simp at hne
  · by_cases hv : ValidRelPath (trimSuffixG e.header.name [goSep]) = false
    · rw [extractEntry_invalid C eD _ st e hv]
      exact ⟨fun k2 _ => rfl, fun h => by simp at h⟩
    · have hvt : ValidRelPath (trimSuffixG e.header.name [goSep]) = true := by
        cases h2 : ValidRelPath (trimSuffixG e.header.name [goSep])
        · exact absurd h2 hv
        · rfl
      by_cases hesc :
          goClean (goAbs C.cwd
              (goJoin eD (trimSuffixG e.header.name [goSep]))) ≠
            trimSuffixG (goClean (goAbs C.cwd eD) ++ [goSep]) [goSep] ∧
          hasPrefixG
              (goClean (goAbs C.cwd
                (goJoin eD (trimSuffixG e.header.name [goSep]))))
              (trimSuffixG (goClean (goAbs C.cwd eD) ++ [goSep]) [goSep] ++
                [goSep]) = false
      · rw [extractEntry_outside C eD _ st e hvt hesc]
        exact ⟨fun k2 _ => rfl, fun h => by simp at h⟩
      · rw [extractEntry_checked C eD _ st e hvt hesc]
        have hpre : absComps C.cwd eD <+:
            absComps C.cwd (goJoin eD (trimSuffixG e.header.name [goSep])) :=
          checked_prefix C.cwd eD (trimSuffixG e.header.name [goSep]) heD hesc
        cases htf : e.header.typeflag with
        | dir =>
          have H := extractDirEntry_confined C
            (goJoin eD (trimSuffixG e.header.name [goSep]))
            (absComps C.cwd (goJoin eD (trimSuffixG e.header.name [goSep])))
            (extractMode e.header.mode) e.header.modTime st
            (absComps C.cwd eD) hds hpre hch
          exact ⟨H.1, fun _ => H.2⟩
        | other => exact ⟨fun k2 _ => rfl, fun _ => hch⟩
        | reg =>
          exact extractRegEntry_confined C
            (goJoin eD (trimSuffixG e.header.name [goSep]))
            (absComps C.cwd (goJoin eD (trimSuffixG e.header.name [goSep])))
            (extractMode e.header.mode) e st (absComps C.cwd eD) hds hpre
            (target_parent_key C.cwd eD (trimSuffixG e.header.name [goSep])
              heD) hch
        | regA =>
          exact extractRegEntry_confined C
            (goJoin eD (trimSuffixG e.header.name [goSep]))
            (absComps C.cwd (goJoin eD (trimSuffixG e.header.name [goSep])))
            (extractMode e.header.mode) e st (absComps C.cwd eD) hds hpre
            (target_parent_key C.cwd eD (trimSuffixG e.header.name [goSep])
              heD) hch
/-- Keys outside the extraction root survive the whole loop untouched. -/
theorem extractLoop_confined (C : XCtx) (eD : GoStr)
    (heD : isAbsG eD = true) :
    ∀ (es : List TarEntry) (i : Nat) (st : XState),
      ChainPresent st.fs (absComps C.cwd eD) →
      ∀ k2, ¬ absComps C.cwd eD <+: k2 →
        lookupFS
          (extractLoop C eD (goClean (goAbs C.cwd eD) ++ [goSep])
            i es st).1.fs k2 = lookupFS st.fs k2 := by
  intro es
  induction es with
  | nil =>
    intro i st _ k2 _
    rw [extractLoop.eq_def]
    cases hc : C.cancel i <;> simp [hc]
  | cons e rest ih =>
    intro i st hch k2 hk2
    rw [extractLoop.eq_def]
    cases hc : C.cancel i
    · simp only [hc, Bool.false_eq_true, if_false]
      have H := extractEntry_confined C eD st e heD hch
      cases hR : extractEntry C eD (goClean (goAbs C.cwd eD) ++ [goSep]) st e
        with
      | mk st2 oe =>
        rw [hR] at H
        cases oe with
        | none =>
          simp only
          rw [ih (i + 1) st2 (H.2 rfl) k2 hk2]
          exact H.1 k2 hk2
        | some err =>
          simp only
          exact H.1 k2 hk2
    · simp [hc]
/-- C1: path containment.  For every entry whose joined, canonicalized
target is neither the cleaned extraction root nor a descendant of it,
the extraction step aborts with the path-outside error without touching
the state; and over a whole `ExtractTarStream` run from a filesystem in
which the extraction root's ancestor chain exists, every key outside
the extraction root is byte-for-byte untouched. -/
theorem C1_path_containment (C : XCtx) (entries : List TarEntry)
    (eD : GoStr) (fs0 : FS) (heD : isAbsG eD = true)
    (hch : ChainPresent fs0 (absComps C.cwd eD)) :
    (∀ st e, ValidRelPath (trimSuffixG e.header.name [goSep]) = true →
      (goClean (goAbs C.cwd
          (goJoin eD (trimSuffixG e.header.name [goSep]))) ≠
        trimSuffixG (goClean (goAbs C.cwd eD) ++ [goSep]) [goSep] ∧
        hasPrefixG
          (goClean (goAbs C.cwd
            (goJoin eD (trimSuffixG e.header.name [goSep]))))
          (trimSuffixG (goClean (goAbs C.cwd eD) ++ [goSep]) [goSep] ++
            [goSep]) = false) →
      extractEntry C eD (goClean (goAbs C.cwd eD) ++ [goSep]) st e =
        (st, some (.outsidePath e.header.name))) ∧
    (∀ k2, ¬ absComps C.cwd eD <+: k2 →
      lookupFS (ExtractTarStream C entries eD fs0).1.fs k2 =
        lookupFS fs0 k2) := by
  constructor
  · intro st e hv hesc
    exact extractEntry_outside C eD _ st e hv hesc
  · intro k2 hk2
    simp only [ExtractTarStream]
    exact extractLoop_confined C eD heD entries 0 ⟨fs0, [], []⟩ hch k2 hk2

theorem C1_path_containment_witness :
    (extractEntry ⟨fun _ => false, fun _ => true, [goSep], 0, 0⟩ [goSep, 'd']
        (goClean (goAbs [goSep] [goSep, 'd']) ++ [goSep])
        ⟨[([['d']], .dir 0o755 0), ([['e']], .dir 0o755 0)], [], []⟩
        ⟨⟨['.', '.'], 0, 0o755, .dir, 0⟩, []⟩ =
      (⟨[([['d']], .dir 0o755 0), ([['e']], .dir 0o755 0)], [], []⟩,
        some (.outsidePath ['.', '.']))) ∧
    lookupFS (ExtractTarStream ⟨fun _ => false, fun _ => true, [goSep], 0, 0⟩
        [⟨⟨['.', '.'], 0, 0o755, .dir, 0⟩, []⟩] [goSep, 'd']
        [([['d']], .dir 0o755 0), ([['e']], .dir 0o755 0)]).1.fs [['e']] =
      lookupFS [([['d']], .dir 0o755 0), ([['e']], .dir 0o755 0)] [['e']] := by
  have H := C1_path_containment ⟨fun _ => false, fun _ => true, [goSep], 0, 0⟩
    [⟨⟨['.', '.'], 0, 0o755, .dir, 0⟩, []⟩] [goSep, 'd']
    [([['d']], .dir 0o755 0), ([['e']], .dir 0o755 0)]
    (by decide) (by decide)
  exact ⟨H.1 _ _ (by decide) (by decide), H.2 [['e']] (by decide)⟩
instance (c : GoStr) : Decidable (GoodComp c) :=
  inferInstanceAs (Decidable (c ≠ [] ∧ c ≠ ['.'] ∧ c ≠ dotdot ∧ goSep ∉ c))

instance (cs : List GoStr) : Decidable (CleanComps cs) :=
  inferInstanceAs (Decidable (∀ c ∈ cs, GoodComp c))

theorem cleanLoop_true_shift (cs : List GoStr) :
    ∀ (rest acc : List GoStr),
      cleanLoop true (cs ++ rest) acc =
        cleanLoop true rest (cleanLoop true cs acc).reverse := by
  induction cs with
  | nil =>
    intro rest acc
    have h0 : cleanLoop true [] acc = acc.reverse := by
      rw [cleanLoop.eq_def]
    rw [List.nil_append, h0, List.reverse_reverse]
  | cons x cs2 ih =>
    intro rest acc
    rw [List.cons_append, cleanLoop.eq_def]
    conv_rhs => enter [3, 1]; rw [cleanLoop.eq_def]
    simp only
    by_cases h1 : x = [] ∨ x = ['.']
    · rw [if_pos h1, if_pos h1, ih]
    · rw [if_neg h1, if_neg h1]
      by_cases h2 : x = dotdot
      · rw [if_pos h2, if_pos h2]
        cases acc with
        | nil =>
          simp only [if_true]
          rw [ih]
        | cons a acc2 =>
          simp only [if_true]
          rw [ih]
      · rw [if_neg h2, if_neg h2, ih]

/-- Joining a clean component onto an absolute path appends one
canonical component. -/
theorem absComps_goJoin_good (cwd p n : GoStr) (hp : isAbsG p = true)
    (hn : GoodComp n) :
    absComps cwd (goJoin p n) = absComps cwd p ++ [n] := by
  have hne : p ≠ [] := by
    intro h
    rw [h] at hp
    simp [isAbsG, hasPrefixG] at hp
  have habs : isAbsG (p ++ goSep :: n) = true := by
    obtain ⟨t, ht⟩ : ∃ t, p = goSep :: t := by
      unfold isAbsG hasPrefixG at hp
      rcases (by simpa using hp : [goSep] <+: p) with ⟨t, ht⟩
      exact ⟨t, ht.symm⟩
    subst ht
    exact hasPrefixG_cons_self _
  have hj : goJoin p n = goClean (p ++ goSep :: n) := by
    unfold goJoin
    rw [if_pos (by simpa using hne)]
  have hsplit : splitSlash (p ++ goSep :: n) = splitSlash p ++ [n] := by
    rw [splitSlash_append, splitSlash_no_sep n hn.2.2.2]
  have hloop : cleanLoop true (splitSlash (p ++ goSep :: n)) [] =
      cleanLoop true (splitSlash p) [] ++ [n] := by
    rw [hsplit, cleanLoop_true_shift]
    rw [cleanLoop.eq_def]
    simp only
    rw [if_neg (by exact not_or.mpr ⟨hn.1, hn.2.1⟩), if_neg hn.2.2.1]
    rw [cleanLoop.eq_def]
    simp
  have hg := goClean_abs (p ++ goSep :: n) habs
  rw [hj, hg.1, absComps_clean cwd _ hg.2, hloop, (absComps_abs cwd p hp).1]

theorem dropPrefixPath_iff (k p r : FsPath) :
    dropPrefixPath k p = some r ↔ p = k ++ r := by
  induction k generalizing p with
  | nil =>
    simp only [dropPrefixPath, List.nil_append]
    constructor
    · intro h
      exact (Option.some.injEq _ _ ▸ h).symm ▸ rfl
    · intro h
      rw [h]
  | cons x xs ih =>
    cases p with
    | nil =>
      simp [dropPrefixPath]
    | cons y ys =>
      simp only [dropPrefixPath, List.cons_append]
      by_cases hxy : x = y
      · subst hxy
        rw [if_pos rfl, ih]
        simp
      · rw [if_neg hxy]
        constructor
        · intro h
          simp at h
        · intro hcon
          rw [List.cons.injEq] at hcon
          exact absurd hcon.1.symm hxy

theorem lookup_of_key_mem (fs : FS) (q : FsPath)
    (h : ∃ e ∈ fs, e.1 = q) : lookupFS fs q ≠ none := by
  induction fs with
  | nil =>
    rcases h with ⟨e2, he2, _⟩
    exact absurd he2 (List.not_mem_nil e2)
  | cons e fs2 ih =>
    obtain ⟨ek, ev⟩ := e
    rcases h with ⟨e2, he2, hkey⟩
    rw [List.mem_cons] at he2
    rw [lookupFS]
    by_cases hk : ek = q
    · rw [if_pos hk]
      simp
    · rw [if_neg hk]
      rcases he2 with he2 | he2
      · subst he2
        exact absurd hkey hk
      · exact ih ⟨e2, he2, hkey⟩

theorem childNames_lookup (fs : FS) (k : FsPath) (n : GoStr)
    (h : n ∈ childNamesFS fs k) : lookupFS fs (k ++ [n]) ≠ none := by
  unfold childNamesFS at h
  rw [List.mem_filterMap] at h
  rcases h with ⟨e, he, hfe⟩
  apply lookup_of_key_mem
  refine ⟨e, he, ?_⟩
  rcases hdp : dropPrefixPath k e.1 with _ | r
  · rw [hdp] at hfe
    simp at hfe
  · rw [hdp] at hfe
    match r, hfe with
    | [c], hfe =>
      have hc : c = n := by
        simpa using hfe
      subst hc
      exact (dropPrefixPath_iff k e.1 [c]).mp hdp

theorem rekeyFS_cons (ek : FsPath) (ev : FsNode) (fs2 : FS)
    (o n : FsPath) :
    rekeyFS ((ek, ev) :: fs2) o n =
      (match dropPrefixPath o ek with
        | some rest => (n ++ rest, ev)
        | none => (ek, ev)) :: rekeyFS fs2 o n := rfl

theorem lookup_rekeyFS_new (fs : FS) (o n : FsPath)
    (hfresh : lookupFS fs n = none) :
    lookupFS (rekeyFS fs o n) n = lookupFS fs o := by
  induction fs with
  | nil => rfl
  | cons e fs2 ih =>
    obtain ⟨ek, ev⟩ := e
    have hhead : ek ≠ n := by
      intro h
      rw [lookupFS, if_pos h] at hfresh
      simp at hfresh
    have htail : lookupFS fs2 n = none := by
      rw [lookupFS, if_neg hhead] at hfresh
      exact hfresh
    rw [rekeyFS_cons]
    rcases hdp : dropPrefixPath o ek with _ | r
    · have hne : ek ≠ o := by
        intro h
        rw [h] at hdp
        have hself : dropPrefixPath o o = some [] := by
          rw [dropPrefixPath_iff]
          simp
        rw [hself] at hdp
        simp at hdp
      rw [lookupFS, lookupFS, if_neg hhead, if_neg hne]
      exact ih htail
    · have hkey : ek = o ++ r := (dropPrefixPath_iff o ek r).mp hdp
      cases r with
      | nil =>
        rw [lookupFS, lookupFS, List.append_nil, if_pos rfl,
          if_pos (by rw [hkey, List.append_nil])]
      | cons c r2 =>
        have h1 : n ++ c :: r2 ≠ n := by
          intro h
          have := congrArg List.length h
          simp at this
        have h2 : ek ≠ o := by
          rw [hkey]
          intro h
          have := congrArg List.length h
          simp at this
        rw [lookupFS, lookupFS, if_neg h1, if_neg h2]
        exact ih htail

theorem dropWhile_head_false (q : Char → Bool) (l : GoStr) (c : Char)
    (t : GoStr) (h : l.dropWhile q = c :: t) : q c = false := by
  induction l with
  | nil => simp [List.dropWhile] at h
  | cons a l2 ih =>
    rw [List.dropWhile_cons] at h
    by_cases hqa : q a = true
    · rw [if_pos hqa] at h
      exact ih h
    · rw [if_neg hqa] at h
      rw [List.cons.injEq] at h
      rw [← h.1]
      exact Bool.not_eq_true _ ▸ hqa

theorem goBase_ne_nil (p : GoStr) : goBase p ≠ [] := by
  unfold goBase
  by_cases hp : p = []
  · simp [hp]
  · rw [if_neg hp]
    by_cases hq : (p.reverse.dropWhile (· = goSep)).reverse = []
    · rw [if_pos hq]
      simp
    · rw [if_neg hq]
      simp only [goSplit, List.reverse_reverse]
      have hd : p.reverse.dropWhile (· = goSep) ≠ [] := by
        intro h
        rw [h] at hq
        simp at hq
      intro hcon
      rw [List.reverse_eq_nil_iff] at hcon
      cases hdw : p.reverse.dropWhile (· = goSep) with
      | nil => exact hd hdw
      | cons c t =>
        have hc : (fun x => decide (x = goSep)) c = false :=
          dropWhile_head_false _ _ _ _ hdw
        rw [hdw] at hcon
        rw [List.takeWhile] at hcon
        simp only at hc
        have hc2 : decide (c ≠ goSep) = true := by
          simp only [decide_not, hc]
          rfl
        rw [hc2] at hcon
        simp at hcon
/-- `ExtractTarToPath` when the destination is not an existing directory
and the parent exists: extraction goes into the parent, `os.ReadDir` on
the parent fails unless it is a directory, and placement is decided
from the full parent listing. -/
theorem ExtractTarToPath_nondir_parent (C : XCtx) (entries : List TarEntry)
    (dest : GoStr) (fs0 : FS) (st : XState)
    (hnd : ∀ m t, statFS fs0 (absComps C.cwd dest) ≠ some (.dir m t))
    (hpar : statFS fs0 (absComps C.cwd (goDir dest)) ≠ none)
    (hst : ExtractTarStream C entries (goDir dest) fs0 = (st, none)) :
    ExtractTarToPath C entries dest fs0 =
      if dirExists st.fs (absComps C.cwd (goDir dest)) = false then
        (st.fs, some .readDirFailed)
      else
        match childNamesFS st.fs (absComps C.cwd (goDir dest)) with
        | [] => (st.fs, some .emptyArchive)
        | [n] =>
          let fs1 := removeFS st.fs (absComps C.cwd dest)
          let r := osMkdirAll fs1 (absComps C.cwd (goDir dest)) 0o755
          if r.2 = false then (r.1, some .mkdirParentFailed)
          else
            let rn := renameFS r.1 (absComps C.cwd (goJoin (goDir dest) n))
                (absComps C.cwd dest)
            if rn.2 = false then (rn.1, some .renameFailed)
            else (rn.1, none)
        | _ => (st.fs, some .ambiguousDest) := by
  simp only [ExtractTarToPath]
  rcases hstat : statFS fs0 (absComps C.cwd dest) with _ | node
  · rw [if_neg (fun h => hpar h.2)]
    simp only [Bool.false_eq_true, if_false]
    rw [hst]
    simp only
    rw [if_neg (goBase_ne_nil dest)]
  · cases node with
    | dir m t => exact absurd hstat (hnd m t)
    | file c m t =>
      rw [if_neg (fun h => hpar h.2)]
      simp only [Bool.false_eq_true, if_false]
      rw [hst]
      simp only
      rw [if_neg (goBase_ne_nil dest)]
/-- C2 (corrected): cp-like placement.  (A) When the destination exists
as a directory, extraction goes directly into it with no rename step.
(B) When it does not and its parent does not exist, the parent-missing
error is returned on the untouched filesystem.  (C) Otherwise
extraction goes into the parent directory; if after extraction the
parent is not a directory, `os.ReadDir` on it fails and the
read-directory error is returned; otherwise placement is decided from
a listing of the WHOLE parent directory: zero entries listed give the
empty-archive error, two or more (including pre-existing siblings of
the destination) give the ambiguous-destination error, and a sole
listed entry is renamed onto the destination: on a fresh destination
whose parent is a directory, the call succeeds and the destination key
afterwards holds exactly the node that sat at the extracted child
key. -/
theorem C2_cp_like_placement (C : XCtx) (entries : List TarEntry)
    (dest : GoStr) (fs0 : FS) :
    ((∃ m t, statFS fs0 (absComps C.cwd dest) = some (.dir m t)) →
      ExtractTarToPath C entries dest fs0 =
        ((ExtractTarStream C entries dest fs0).1.fs,
          Option.map CpErr.extractErr
            (ExtractTarStream C entries dest fs0).2)) ∧
    ((∀ m t, statFS fs0 (absComps C.cwd dest) ≠ some (.dir m t)) →
      statFS fs0 (absComps C.cwd (goDir dest)) = none →
      ExtractTarToPath C entries dest fs0 = (fs0, some .parentMissing)) ∧
    (∀ dsc : List GoStr, dest = goSep :: joinComps dsc → CleanComps dsc →
      (∀ m t, statFS fs0 (absComps C.cwd dest) ≠ some (.dir m t)) →
      statFS fs0 (absComps C.cwd (goDir dest)) ≠ none →
      ∀ st, ExtractTarStream C entries (goDir dest) fs0 = (st, none) →
      ((dirExists st.fs (absComps C.cwd (goDir dest)) = false →
        ExtractTarToPath C entries dest fs0 =
          (st.fs, some .readDirFailed)) ∧
      (dirExists st.fs (absComps C.cwd (goDir dest)) = true →
        childNamesFS st.fs (absComps C.cwd (goDir dest)) = [] →
        ExtractTarToPath C entries dest fs0 = (st.fs, some .emptyArchive)) ∧
      (∀ a b l,
        dirExists st.fs (absComps C.cwd (goDir dest)) = true →
        childNamesFS st.fs (absComps C.cwd (goDir dest)) = a :: b :: l →
        ExtractTarToPath C entries dest fs0 =
          (st.fs, some .ambiguousDest)) ∧
      (∀ n, dirExists st.fs (absComps C.cwd (goDir dest)) = true →
        childNamesFS st.fs (absComps C.cwd (goDir dest)) = [n] →
        GoodComp n →
        lookupFS st.fs (absComps C.cwd dest) = none →
        NoRootKey st.fs →
        (ExtractTarToPath C entries dest fs0).2 = none ∧
        lookupFS (ExtractTarToPath C entries dest fs0).1
            (absComps C.cwd dest) =
          lookupFS st.fs (absComps C.cwd (goDir dest) ++ [n])))) := by
  refine ⟨?_, ?_, ?_⟩
  · rintro ⟨m, t, hstat⟩
    simp only [ExtractTarToPath, hstat, eq_self_iff_true, if_true,
      Bool.true_eq_false, false_and, if_false]
    rcases hS : ExtractTarStream C entries dest fs0 with ⟨st, oe⟩
    cases oe <;> simp
  · intro hnd hpar
    simp only [ExtractTarToPath]
    rcases hstat : statFS fs0 (absComps C.cwd dest) with _ | node
    · rw [if_pos ⟨by trivial, hpar⟩]
    · cases node with
      | dir m t => exact absurd hstat (hnd m t)
      | file c m t => rw [if_pos ⟨by trivial, hpar⟩]
  · intro dsc hdest hclean hnd hpar st hst
    have hred := ExtractTarToPath_nondir_parent C entries dest fs0 st hnd
      hpar hst
    refine ⟨?_, ?_, ?_, ?_⟩
    · intro hdirF
      rw [hred, if_pos hdirF]
    · intro hdir hchild
      rw [hred, if_neg (by simp [hdir]), hchild]
    · intro a b l hdir hchild
      rw [hred, if_neg (by simp [hdir]), hchild]
    · intro n hdir hchild hgood hfresh hroot
      have hoexists : lookupFS st.fs
          (absComps C.cwd (goDir dest) ++ [n]) ≠ none :=
        childNames_lookup st.fs _ n (by rw [hchild]; exact List.mem_singleton.mpr rfl)
      have hdirabs : isAbsG (goDir dest) = true := by
        rw [hdest, goDir_clean dsc hclean]
        exact hasPrefixG_cons_self _
      have hjoin : absComps C.cwd (goJoin (goDir dest) n) =
          absComps C.cwd (goDir dest) ++ [n] :=
        absComps_goJoin_good C.cwd (goDir dest) n hdirabs hgood
      have hone : absComps C.cwd (goDir dest) ++ [n] ≠
          absComps C.cwd dest := by
        intro h
        rw [h] at hoexists
        exact hoexists hfresh
      obtain ⟨v, hv⟩ := Option.ne_none_iff_exists'.mp hoexists
      have hren : renameFS st.fs (absComps C.cwd (goJoin (goDir dest) n))
          (absComps C.cwd dest) =
          (rekeyFS st.fs (absComps C.cwd (goDir dest) ++ [n])
            (absComps C.cwd dest), true) := by
        rw [hjoin]
        unfold renameFS
        rw [if_neg hone, hv, hfresh]
        cases v <;> rfl
      rw [hred, if_neg (by simp [hdir]), hchild]
      simp only
      rw [removeFS_of_none st.fs _ hfresh,
        osMkdirAll_noop st.fs _ 0o755 hroot hdir]
      simp only
      rw [if_neg (by simp), hren]
      simp only
      rw [if_neg (by simp)]
      exact ⟨rfl, lookup_rekeyFS_new st.fs _ _ hfresh⟩
/-- C2 counterexample to the claimed single-item rename: a single-file
archive copied to a non-existent destination whose parent directory
already holds an unrelated file fails with the ambiguous-destination
error and creates nothing at the destination path. -/
theorem C2_counterexample :
    (ExtractTarToPath ⟨fun _ => false, fun _ => true, [goSep], 0, 0⟩
        [⟨⟨['a'], 1, 0o644, .reg, 0⟩, [7]⟩] [goSep, 'p', goSep, 'b']
        [([['p']], .dir 0o755 0), ([['p'], ['x']], .file [] 0o644 0)]).2 =
      some CpErr.ambiguousDest ∧
    lookupFS (ExtractTarToPath ⟨fun _ => false, fun _ => true, [goSep], 0, 0⟩
        [⟨⟨['a'], 1, 0o644, .reg, 0⟩, [7]⟩] [goSep, 'p', goSep, 'b']
        [([['p']], .dir 0o755 0), ([['p'], ['x']], .file [] 0o644 0)]).1
      [['p'], ['b']] = none := by
  decide

theorem C2_cp_like_placement_witness :
    (ExtractTarToPath ⟨fun _ => false, fun _ => true, [goSep], 0, 0⟩
        [⟨⟨['a'], 1, 0o644, .reg, 0⟩, [7]⟩] [goSep, 'p', goSep, 'b']
        [([['p']], .dir 0o755 0)]).2 = none ∧
    lookupFS (ExtractTarToPath ⟨fun _ => false, fun _ => true, [goSep], 0, 0⟩
        [⟨⟨['a'], 1, 0o644, .reg, 0⟩, [7]⟩] [goSep, 'p', goSep, 'b']
        [([['p']], .dir 0o755 0)]).1
      (absComps [goSep] [goSep, 'p', goSep, 'b']) =
    lookupFS (ExtractTarStream ⟨fun _ => false, fun _ => true, [goSep], 0, 0⟩
        [⟨⟨['a'], 1, 0o644, .reg, 0⟩, [7]⟩] (goDir [goSep, 'p', goSep, 'b'])
        [([['p']], .dir 0o755 0)]).1.fs
      (absComps [goSep] (goDir [goSep, 'p', goSep, 'b']) ++ [['a']]) := by
  have H := (C2_cp_like_placement
      ⟨fun _ => false, fun _ => true, [goSep], 0, 0⟩
      [⟨⟨['a'], 1, 0o644, .reg, 0⟩, [7]⟩] [goSep, 'p', goSep, 'b']
      [([['p']], .dir 0o755 0)]).2.2 [['p'], ['b']] rfl (by decide)
    (by
      intro m t h
      rw [show statFS [([['p']], FsNode.dir 0o755 0)]
          (absComps [goSep] [goSep, 'p', goSep, 'b']) = none from rfl] at h
      exact Option.noConfusion h)
    (by decide)
    (ExtractTarStream ⟨fun _ => false, fun _ => true, [goSep], 0, 0⟩
        [⟨⟨['a'], 1, 0o644, .reg, 0⟩, [7]⟩] (goDir [goSep, 'p', goSep, 'b'])
        [([['p']], .dir 0o755 0)]).1
    (by decide)
  exact H.2.2.2 ['a'] (by decide) (by decide) (by decide) (by decide)
    (by rfl)
/-- An occurrence of `"../"` in `c ++ "/" ++ t` with `c` separator-free
is either `".."` at the end of `c` or an occurrence inside `t`. -/
theorem infix_sep_cases : ∀ (c : GoStr), goSep ∉ c → ∀ t : GoStr,
    ('.' :: '.' :: [goSep]) <:+: (c ++ goSep :: t) →
    (dotdot <:+ c) ∨ ('.' :: '.' :: [goSep]) <:+: t := by
  intro c
  induction c with
  | nil =>
    intro _ t h
    rw [List.nil_append, List.infix_cons_iff] at h
    rcases h with h | h
    · exfalso
      rcases List.cons_prefix_cons.mp h with ⟨hdot, _⟩
      exact absurd hdot.symm (by decide)
    · exact Or.inr h
  | cons x c2 ih =>
    intro hsep t h
    rw [List.cons_append, List.infix_cons_iff] at h
    rcases h with h | h
    · rcases List.cons_prefix_cons.mp h with ⟨hx, h2⟩
      cases c2 with
      | nil =>
        exfalso
        rcases List.cons_prefix_cons.mp h2 with ⟨hy, _⟩
        exact absurd hy.symm (by decide)
      | cons y c3 =>
        rcases List.cons_prefix_cons.mp h2 with ⟨hy, h3⟩
        cases c3 with
        | nil =>
          left
          rw [← hx, ← hy]
          exact List.suffix_rfl
        | cons z c4 =>
          exfalso
          rcases List.cons_prefix_cons.mp h3 with ⟨hz, _⟩
          refine hsep ?_
          rw [← hz]
          simp
    · rcases ih (fun hm => hsep (by simp [hm])) t h with h2 | h2
      · exact Or.inl (h2.trans (List.suffix_cons x c2))
      · exact Or.inr h2

theorem no_traversal_join : ∀ rs : List GoStr,
    (∀ c ∈ rs, goSep ∉ c ∧ ¬ dotdot <:+ c) →
    ¬ ('.' :: '.' :: [goSep]) <:+: joinComps rs := by
  intro rs
  induction rs with
  | nil =>
    intro _ h
    have h0 : joinComps ([] : List GoStr) = [] := rfl
    rw [h0] at h
    have := List.eq_nil_of_infix_nil h
    simp at this
  | cons c rest ih =>
    intro hcomps h
    cases hr : rest with
    | nil =>
      subst hr
      have h0 : joinComps [c] = c := by
        simp [joinComps, List.intercalate, List.intersperse]
      rw [h0] at h
      exact (hcomps c (by simp)).1 (h.subset (by simp))
    | cons d rest2 =>
      rw [joinComps_cons c rest (by simp [hr])] at h
      rcases infix_sep_cases c (hcomps c (by simp)).1 (joinComps rest) h with
        h2 | h2
      · exact (hcomps c (by simp)).2 h2
      · exact ih (fun x hx => hcomps x (by simp [hx])) h2

/-- The rendering of a non-empty list of clean, traversal-safe
components passes `ValidRelPath`. -/
theorem ValidRelPath_join (rs : List GoStr) (hne : rs ≠ [])
    (hcomps : ∀ c ∈ rs, GoodComp c ∧ ¬ dotdot <:+ c) :
    ValidRelPath (joinComps rs) = true := by
  cases hv : ValidRelPath (joinComps rs)
  · exfalso
    rcases (ValidRelPath_false_iff (joinComps rs)).mp hv with h | h | h
    · rw [joinComps_eq_nil rs (fun c hc => (hcomps c hc).1.1)] at h
      exact hne h
    · cases rs with
      | nil => exact hne rfl
      | cons c rest =>
        obtain ⟨Z, hZ⟩ : ∃ Z, joinComps (c :: rest) = c ++ Z := by
          cases hr : rest with
          | nil =>
            refine ⟨[], ?_⟩
            simp [joinComps, List.intercalate, List.intersperse]
          | cons d rest2 =>
            exact ⟨goSep :: joinComps (d :: rest2),
              joinComps_cons c (d :: rest2) (by simp)⟩
        rw [hZ] at h
        unfold hasPrefixG at h
        rw [decide_eq_true_eq] at h
        obtain ⟨hc1, _, _⟩ := (hcomps c (by simp)).1
        cases c with
        | nil => exact hc1 rfl
        | cons ch ctl =>
          rcases List.cons_prefix_cons.mp h with ⟨hch, _⟩
          exact (hcomps (ch :: ctl) (by simp)).1.2.2.2 (by simp [hch])
    · unfold containsG at h
      rw [decide_eq_true_eq] at h
      exact no_traversal_join rs
        (fun c hc => ⟨(hcomps c hc).1.2.2.2, (hcomps c hc).2⟩) h
  · rfl
theorem trimSuffixG_of_not_suffix (s suf : GoStr) (h : ¬ suf <:+ s) :
    trimSuffixG s suf = s := by
  unfold trimSuffixG
  rw [if_neg h]

theorem joinComps_no_slash_suffix (rs : List GoStr) (hne : rs ≠ [])
    (h : CleanComps rs) : ¬ [goSep] <:+ joinComps rs := by
  intro hsfx
  rcases hsfx with ⟨t, ht⟩
  have hrev : goSep :: t.reverse = (joinComps rs).reverse := by
    rw [← ht]
    simp
  induction rs using List.reverseRecOn with
  | nil => exact hne rfl
  | append_singleton init c _ =>
    obtain ⟨hc1, _, _, hc4⟩ := h c (by simp)
    rw [joinComps_concat] at hrev
    by_cases hi : init = []
    · rw [if_pos hi] at hrev
      cases hcr : c.reverse with
      | nil => exact hc1 (by simpa using congrArg List.reverse hcr)
      | cons a2 b2 =>
        rw [hcr] at hrev
        rcases List.cons.injEq .. ▸ hrev with ⟨ha2, _⟩
        apply hc4
        rw [← List.mem_reverse, hcr, ← ha2]
        simp
    · rw [if_neg hi] at hrev
      have hsplit : (joinComps init ++ goSep :: c).reverse =
          c.reverse ++ goSep :: (joinComps init).reverse := by
        simp
      rw [hsplit] at hrev
      cases hcr : c.reverse with
      | nil => exact hc1 (by simpa using congrArg List.reverse hcr)
      | cons a2 b2 =>
        rw [hcr, List.cons_append] at hrev
        rcases List.cons.injEq .. ▸ hrev with ⟨ha2, _⟩
        apply hc4
        rw [← List.mem_reverse, hcr, ← ha2]
        simp

theorem joinComps_append (dd rs : List GoStr) (hdd : dd ≠ [])
    (hrs : rs ≠ []) :
    joinComps (dd ++ rs) = joinComps dd ++ goSep :: joinComps rs := by
  induction dd with
  | nil => exact absurd rfl hdd
  | cons c dd2 ih =>
    by_cases h2 : dd2 = []
    · subst h2
      rw [List.cons_append, List.nil_append,
        joinComps_cons c rs hrs]
      have h0 : joinComps [c] = c := by
        simp [joinComps, List.intercalate, List.intersperse]
      rw [h0]
    · rw [List.cons_append,
        joinComps_cons c (dd2 ++ rs) (by simp [h2]),
        joinComps_cons c dd2 h2, ih h2]
      simp

/-- Joining the rendering of clean components onto a canonical absolute
directory renders the concatenated components. -/
theorem goJoin_clean_comps (cwd : GoStr) (dd rs : List GoStr)
    (hdd : CleanComps dd) (hddne : dd ≠ [])
    (hrs : CleanComps rs) (hrsne : rs ≠ []) :
    goJoin (goSep :: joinComps dd) (joinComps rs) =
      goSep :: joinComps (dd ++ rs) ∧
    absComps cwd (goJoin (goSep :: joinComps dd) (joinComps rs)) =
      dd ++ rs := by
  have hcat : CleanComps (dd ++ rs) := by
    intro c hc
    rcases List.mem_append.mp hc with hc | hc
    · exact hdd c hc
    · exact hrs c hc
  have hj : goJoin (goSep :: joinComps dd) (joinComps rs) =
      goClean ((goSep :: joinComps dd) ++ goSep :: joinComps rs) := by
    unfold goJoin
    rw [if_pos (by simp)]
  have hstr : (goSep :: joinComps dd) ++ goSep :: joinComps rs =
      goSep :: joinComps (dd ++ rs) := by
    rw [joinComps_append dd rs hddne hrsne]
    simp
  rw [hj, hstr, goClean_clean _ hcat]
  exact ⟨rfl, absComps_clean cwd _ hcat⟩

theorem insertFS_cons (ek : FsPath) (ev : FsNode) (fs2 : FS) (k : FsPath)
    (n : FsNode) :
    insertFS ((ek, ev) :: fs2) k n =
      if ek = k then (k, n) :: fs2 else (ek, ev) :: insertFS fs2 k n := rfl

theorem insertFS_insertFS (fs : FS) (k : FsPath) (a b : FsNode) :
    insertFS (insertFS fs k a) k b = insertFS fs k b := by
  induction fs with
  | nil => simp [insertFS]
  | cons e fs2 ih =>
    obtain ⟨ek, ev⟩ := e
    by_cases hk : ek = k
    · simp [insertFS_cons, hk]
    · simp [insertFS_cons, hk, ih]

theorem chtimesFS_insert_dir (fs : FS) (k : FsPath) (m : Nat) (t0 t : Int) :
    chtimesFS (insertFS fs k (.dir m t0)) k t = insertFS fs k (.dir m t) := by
  unfold chtimesFS
  rw [lookup_insertFS_self]
  exact insertFS_insertFS fs k _ _

theorem chtimesFS_insert_file (fs : FS) (k : FsPath) (c : List Nat)
    (m : Nat) (t0 t : Int) :
    chtimesFS (insertFS fs k (.file c m t0)) k t =
      insertFS fs k (.file c m t) := by
  unfold chtimesFS
  rw [lookup_insertFS_self]
  exact insertFS_insertFS fs k _ _

theorem chmodFS_insert_file (fs : FS) (k : FsPath) (c : List Nat)
    (m0 m : Nat) (t : Int) :
    chmodFS (insertFS fs k (.file c m0 t)) k m =
      insertFS fs k (.file c m t) := by
  unfold chmodFS
  rw [lookup_insertFS_self]
  exact insertFS_insertFS fs k _ _

/-- `os.MkdirAll` on a fresh key whose parent is an existing directory
creates exactly that directory. -/
theorem osMkdirAll_fresh (fs : FS) (k : FsPath) (mode : Nat)
    (hk : k ≠ []) (hnone : lookupFS fs k = none)
    (hpar : dirExists fs k.dropLast = true) (hroot : NoRootKey fs) :
    osMkdirAll fs k mode = (insertFS fs k (.dir mode 0), true) := by
  rw [osMkdirAll_eq, hnone]
  simp only [hk, if_false]
  rw [osMkdirAll_noop fs k.dropLast mode hroot hpar]
  simp
/-- The node a round trip is expected to place on disk: same content,
the archived-then-extracted permission mode, the original mtime. -/
def normNode : TNode → FsNode
  | .tfile c m mt => .file c (extractMode (buildMode true m)) mt
  | .tdir _ m mt => .dir (extractMode (buildMode false m)) mt

/-- Well-formedness of a walk enumeration, checked left to right:
every visited object is below the root, has clean traversal-safe
component names, is not visited twice, and its parent is the walk root
or a directory visited earlier — exactly the shape `filepath.Walk`
produces for a tree of files and directories. -/
def WFStep : List FsPath → List FsPath → TreeList → Bool
  | _, _, [] => true
  | keys, dirs, (rs, n) :: rest =>
    decide (rs ≠ []) &&
    decide (∀ c ∈ rs, GoodComp c ∧ ¬ dotdot <:+ c) &&
    decide (rs ∉ keys) &&
    (decide (rs.dropLast = []) || decide (rs.dropLast ∈ dirs)) &&
    match n with
    | .tdir _ _ _ => WFStep (rs :: keys) (rs :: dirs) rest
    | .tfile _ _ _ => WFStep (rs :: keys) dirs rest

/-- The containment and naming checks all pass for a rendered in-tree
path. -/
theorem C3_checked (C : XCtx) (dd rs : List GoStr) (hdd : CleanComps dd)
    (hddne : dd ≠ []) (hrsC : CleanComps rs) (hrs : rs ≠ [])
    (hcomps : ∀ c ∈ rs, GoodComp c ∧ ¬ dotdot <:+ c) :
    ValidRelPath (joinComps rs) = true ∧
    trimSuffixG (goClean (goAbs C.cwd (goSep :: joinComps dd)) ++ [goSep])
        [goSep] = goSep :: joinComps dd ∧
    goClean (goAbs C.cwd (goJoin (goSep :: joinComps dd) (joinComps rs))) =
      goSep :: joinComps (dd ++ rs) ∧
    absComps C.cwd (goJoin (goSep :: joinComps dd) (joinComps rs)) =
      dd ++ rs ∧
    hasPrefixG (goSep :: joinComps (dd ++ rs))
      ((goSep :: joinComps dd) ++ [goSep]) = true := by
  have hcat : CleanComps (dd ++ rs) := by
    intro c hc
    rcases List.mem_append.mp hc with hc | hc
    · exact hdd c hc
    · exact hrsC c hc
  have hgj := goJoin_clean_comps C.cwd dd rs hdd hddne hrsC hrs
  refine ⟨ValidRelPath_join rs hrs hcomps, ?_, ?_, hgj.2, ?_⟩
  · unfold goAbs
    rw [if_pos (show isAbsG (goSep :: joinComps dd) = true from
      hasPrefixG_cons_self _), goClean_clean dd hdd, goClean_clean dd hdd]
    exact trimSuffixG_concat _ _
  · unfold goAbs
    rw [hgj.1, if_pos (show isAbsG (goSep :: joinComps (dd ++ rs)) = true
      from hasPrefixG_cons_self _), goClean_clean _ hcat,
      goClean_clean _ hcat]
  · unfold hasPrefixG
    apply decide_eq_true
    rw [joinComps_append dd rs hddne hrs]
    refine List.cons_prefix_cons.mpr ⟨rfl, ?_⟩
    refine ⟨joinComps rs, ?_⟩
    simp

/-- Extracting the tar record of a visited directory creates exactly
that directory. -/
theorem C3_entry_dir (C : XCtx) (dd rs : List GoStr) (hdd : CleanComps dd)
    (hddne : dd ≠ []) (hrs : rs ≠ [])
    (hcomps : ∀ c ∈ rs, GoodComp c ∧ ¬ dotdot <:+ c)
    (size m : Nat) (mt : Int) (st : XState)
    (hfresh : lookupFS st.fs (dd ++ rs) = none)
    (hpdir : dirExists st.fs (dd ++ rs.dropLast) = true)
    (hroot : NoRootKey st.fs) :
    (extractEntry C (goSep :: joinComps dd)
        (goClean (goAbs C.cwd (goSep :: joinComps dd)) ++ [goSep]) st
        ⟨⟨joinComps rs ++ [goSep], size, buildMode false m, .dir, mt⟩,
          []⟩).2 = none ∧
    (extractEntry C (goSep :: joinComps dd)
        (goClean (goAbs C.cwd (goSep :: joinComps dd)) ++ [goSep]) st
        ⟨⟨joinComps rs ++ [goSep], size, buildMode false m, .dir, mt⟩,
          []⟩).1.fs =
      insertFS st.fs (dd ++ rs)
        (.dir (extractMode (buildMode false m)) mt) := by
  have hrsC : CleanComps rs := fun c hc => (hcomps c hc).1
  obtain ⟨hv, hbase, htgt, hkey, hpre⟩ :=
    C3_checked C dd rs hdd hddne hrsC hrs hcomps
  have hname : trimSuffixG (joinComps rs ++ [goSep]) [goSep] =
      joinComps rs := trimSuffixG_concat _ _
  have hrw := extractEntry_checked C (goSep :: joinComps dd)
    (goClean (goAbs C.cwd (goSep :: joinComps dd)) ++ [goSep]) st
    ⟨⟨joinComps rs ++ [goSep], size, buildMode false m, .dir, mt⟩, []⟩
    (by
      show ValidRelPath (trimSuffixG (joinComps rs ++ [goSep]) [goSep]) =
        true
      rw [hname]
      exact hv)
    (by
      show ¬ _
      rw [hname]
      intro hx
      rcases hx with ⟨h1, h2⟩
      rw [htgt, hbase] at h2
      rw [hpre] at h2
      exact Bool.true_eq_false ▸ h2)
  rw [hrw]
  simp only
  rw [hname, hkey]
  have hknil : dd ++ rs ≠ [] := by
    simp [hddne]
  have hdl : (dd ++ rs).dropLast = dd ++ rs.dropLast :=
    List.dropLast_append_of_ne_nil dd hrs
  simp only [extractDirEntry]
  rw [osMkdirAll_fresh st.fs (dd ++ rs) _ hknil hfresh (hdl ▸ hpdir) hroot]
  rw [if_neg (by simp)]
  by_cases hmt : mt ≠ 0
  · rw [if_pos hmt]
    refine ⟨rfl, ?_⟩
    dsimp only
    rw [fs_ite_doChown]
    exact chtimesFS_insert_dir st.fs (dd ++ rs) _ 0 mt
  · rw [if_neg hmt]
    push_neg at hmt
    subst hmt
    refine ⟨rfl, ?_⟩
    rw [fs_ite_doChown]
/-- Extracting the tar record of a visited regular file creates exactly
that file, with the full content written. -/
theorem C3_entry_file (C : XCtx) (dd rs : List GoStr) (hdd : CleanComps dd)
    (hddne : dd ≠ []) (hrs : rs ≠ [])
    (hcomps : ∀ c ∈ rs, GoodComp c ∧ ¬ dotdot <:+ c)
    (content : List Nat) (m : Nat) (mt : Int) (st : XState)
    (hfresh : lookupFS st.fs (dd ++ rs) = none)
    (hpdir : dirExists st.fs (dd ++ rs.dropLast) = true)
    (hroot : NoRootKey st.fs) :
    (extractEntry C (goSep :: joinComps dd)
        (goClean (goAbs C.cwd (goSep :: joinComps dd)) ++ [goSep]) st
        ⟨⟨joinComps rs, content.length, buildMode true m, .reg, mt⟩,
          content⟩).2 = none ∧
    (extractEntry C (goSep :: joinComps dd)
        (goClean (goAbs C.cwd (goSep :: joinComps dd)) ++ [goSep]) st
        ⟨⟨joinComps rs, content.length, buildMode true m, .reg, mt⟩,
          content⟩).1.fs =
      insertFS st.fs (dd ++ rs)
        (.file content (extractMode (buildMode true m)) mt) := by
  have hrsC : CleanComps rs := fun c hc => (hcomps c hc).1
  obtain ⟨hv, hbase, htgt, hkey, hpre⟩ :=
    C3_checked C dd rs hdd hddne hrsC hrs hcomps
  have hname : trimSuffixG (joinComps rs) [goSep] = joinComps rs :=
    trimSuffixG_of_not_suffix _ _ (joinComps_no_slash_suffix rs hrs hrsC)
  have hcat : CleanComps (dd ++ rs) := by
    intro c hc
    rcases List.mem_append.mp hc with hc | hc
    · exact hdd c hc
    · exact hrsC c hc
  have hknil : dd ++ rs ≠ [] := by
    simp [hddne]
  have hdl : (dd ++ rs).dropLast = dd ++ rs.dropLast :=
    List.dropLast_append_of_ne_nil dd hrs
  have hgj := goJoin_clean_comps C.cwd dd rs hdd hddne hrsC hrs
  have hparkey : absComps C.cwd
      (goDir (goJoin (goSep :: joinComps dd) (joinComps rs))) =
      dd ++ rs.dropLast := by
    rw [hgj.1, goDir_clean _ hcat, absComps_clean C.cwd _
      (fun c hc => hcat c ((List.dropLast_sublist _).subset hc)), hdl]
  have hrw := extractEntry_checked C (goSep :: joinComps dd)
    (goClean (goAbs C.cwd (goSep :: joinComps dd)) ++ [goSep]) st
    ⟨⟨joinComps rs, content.length, buildMode true m, .reg, mt⟩, content⟩
    (by
      show ValidRelPath (trimSuffixG (joinComps rs) [goSep]) = true
      rw [hname]
      exact hv)
    (by
      show ¬ _
      rw [hname]
      intro hx
      rcases hx with ⟨h1, h2⟩
      rw [htgt, hbase] at h2
      rw [hpre] at h2
      exact Bool.true_eq_false ▸ h2)
  rw [hrw]
  simp only
  rw [hname, hkey]
  -- the parent-directory step leaves the filesystem unchanged
  have hstepA : ∀ st2 : XState, st2.fs = st.fs →
      (extractRegWrite C (goJoin (goSep :: joinComps dd) (joinComps rs))
        (dd ++ rs) (extractMode (buildMode true m))
        ⟨⟨joinComps rs, content.length, buildMode true m, .reg, mt⟩,
          content⟩ st2).2 = none ∧
      (extractRegWrite C (goJoin (goSep :: joinComps dd) (joinComps rs))
        (dd ++ rs) (extractMode (buildMode true m))
        ⟨⟨joinComps rs, content.length, buildMode true m, .reg, mt⟩,
          content⟩ st2).1.fs =
        insertFS st.fs (dd ++ rs)
          (.file content (extractMode (buildMode true m)) mt) := by
    intro st2 hst2
    simp only [extractRegWrite]
    rw [hst2]
    rw [removeFS_of_none st.fs _ hfresh]
    rw [List.take_length]
    rw [osOpenWriteFile_create st.fs (dd ++ rs) content _ hknil hfresh
      (hdl ▸ hpdir)]
    rw [if_neg (by simp)]
    rw [if_neg (by simp)]
    rw [if_neg (by simp)]
    dsimp only
    rw [chmodFS_insert_file st.fs (dd ++ rs) content _ _ 0]
    by_cases hmt : mt ≠ 0
    · rw [if_pos hmt]
      refine ⟨rfl, ?_⟩
      dsimp only
      rw [fs_ite_doChown]
      dsimp only
      exact chtimesFS_insert_file st.fs (dd ++ rs) content _ 0 mt
    · rw [if_neg hmt]
      push_neg at hmt
      subst hmt
      refine ⟨rfl, ?_⟩
      rw [fs_ite_doChown]
  simp only [extractRegEntry]
  by_cases hmem : goDir (goJoin (goSep :: joinComps dd) (joinComps rs)) ∈
      st.madeDir
  · rw [if_pos hmem]
    dsimp only
    rw [if_neg (by simp)]
    exact hstepA st rfl
  · rw [if_neg hmem]
    rw [hparkey]
    rw [osMkdirAll_noop st.fs (dd ++ rs.dropLast) 0o755 hroot hpdir]
    simp only
    rw [if_neg (by simp)]
    exact hstepA ⟨st.fs, goDir (goJoin (goSep :: joinComps dd)
      (joinComps rs)) :: st.madeDir, st.chowns⟩ rfl
theorem NoRootKey_insert (fs : FS) (k : FsPath) (n : FsNode) (hk : k ≠ [])
    (h : NoRootKey fs) : NoRootKey (insertFS fs k n) := by
  unfold NoRootKey at h ⊢
  rw [lookup_insertFS_ne fs k [] n (fun hx => hk hx.symm)]
  exact h

theorem dirExists_insert_ne (fs : FS) (k k2 : FsPath) (n : FsNode)
    (h : k2 ≠ k) : dirExists (insertFS fs k n) k2 = dirExists fs k2 :=
  dirExists_of_lookup_eq fs _ k2 (lookup_insertFS_ne fs k k2 n h)

theorem dirExists_insert_dir (fs : FS) (k : FsPath) (m : Nat) (t : Int)
    (hk : k ≠ []) : dirExists (insertFS fs k (.dir m t)) k = true := by
  unfold dirExists
  cases k with
  | nil => rfl
  | cons c rest => rw [lookup_insertFS_self]

theorem WFStep_cons (keys dirs : List FsPath) (rs : FsPath) (n : TNode)
    (rest : TreeList) :
    WFStep keys dirs ((rs, n) :: rest) =
      (decide (rs ≠ []) &&
        decide (∀ c ∈ rs, GoodComp c ∧ ¬ dotdot <:+ c) &&
        decide (rs ∉ keys) &&
        (decide (rs.dropLast = []) || decide (rs.dropLast ∈ dirs)) &&
        match n with
        | .tdir _ _ _ => WFStep (rs :: keys) (rs :: dirs) rest
        | .tfile _ _ _ => WFStep (rs :: keys) dirs rest) := rfl

theorem buildLoop_cons (c0 : Nat → Bool) (i : Nat) (rs : FsPath) (n : TNode)
    (rest : TreeList) :
    buildLoop c0 i ((rs, n) :: rest) =
      if c0 i then ([], some .cancelled)
      else (buildEntry rs n ++ (buildLoop c0 (i + 1) rest).1,
        (buildLoop c0 (i + 1) rest).2) := rfl

/-- The extraction loop over the records of a well-formed walk suffix:
no error, and the filesystem gains exactly one node per visited
object. -/
theorem C3_loop (C : XCtx) (c0 : Nat → Bool) (dd : List GoStr)
    (hcancel : ∀ i, C.cancel i = false) (hc0 : ∀ j, c0 j = false)
    (hdd : CleanComps dd) (hddne : dd ≠ []) :
    ∀ (rest : TreeList) (keys dirs : List FsPath) (st : XState) (i j : Nat),
      WFStep keys dirs rest = true →
      dirs ⊆ keys →
      NoRootKey st.fs →
      dirExists st.fs dd = true →
      (∀ p ∈ dirs, dirExists st.fs (dd ++ p) = true) →
      (∀ rs : FsPath, rs ≠ [] → rs ∉ keys →
        lookupFS st.fs (dd ++ rs) = none) →
      (extractLoop C (goSep :: joinComps dd)
          (goClean (goAbs C.cwd (goSep :: joinComps dd)) ++ [goSep])
          i (buildLoop c0 j rest).1 st).2 = none ∧
      (extractLoop C (goSep :: joinComps dd)
          (goClean (goAbs C.cwd (goSep :: joinComps dd)) ++ [goSep])
          i (buildLoop c0 j rest).1 st).1.fs =
        rest.foldl
          (fun fs p => insertFS fs (dd ++ p.1) (normNode p.2)) st.fs := by
  intro rest
  induction rest with
  | nil =>
    intro keys dirs st i j _ _ _ _ _ _
    rw [show (buildLoop c0 j []).1 = [] from rfl]
    rw [extractLoop.eq_def]
    simp [hcancel i]
  | cons p rest2 ih =>
    obtain ⟨rs, n⟩ := p
    intro keys dirs st i j hwf hsub hroot hrootdir hdirs hfresh
    rw [WFStep_cons] at hwf
    simp only [Bool.and_eq_true, Bool.or_eq_true, decide_eq_true_eq] at hwf
    obtain ⟨⟨⟨⟨hrsne, hcomps⟩, hnotk⟩, hpar⟩, hwf2⟩ := hwf
    rw [buildLoop_cons, hc0 j]
    simp only [Bool.false_eq_true, if_false]
    have hpdir : dirExists st.fs (dd ++ rs.dropLast) = true := by
      rcases hpar with hpar | hpar
      · rw [hpar, List.append_nil]
        exact hrootdir
      · exact hdirs _ hpar
    have hfreshE : lookupFS st.fs (dd ++ rs) = none :=
      hfresh rs hrsne hnotk
    cases n with
    | tdir size m mt =>
      have hE := C3_entry_dir C dd rs hdd hddne hrsne hcomps size m mt st
        hfreshE hpdir hroot
      rw [show buildEntry rs (.tdir size m mt) =
        [⟨⟨joinComps rs ++ [goSep], size, buildMode false m, .dir, mt⟩,
          []⟩] from by rw [buildEntry, if_neg hrsne]]
      rw [List.singleton_append]
      rw [extractLoop.eq_def]
      simp only [hcancel i, Bool.false_eq_true, if_false]
      rcases hEE : extractEntry C (goSep :: joinComps dd)
          (goClean (goAbs C.cwd (goSep :: joinComps dd)) ++ [goSep]) st
          ⟨⟨joinComps rs ++ [goSep], size, buildMode false m, .dir, mt⟩,
            []⟩ with ⟨st2, oe⟩
      rw [hEE] at hE
      obtain ⟨hoe, hfs2⟩ := hE
      simp only at hoe hfs2
      subst hoe
      simp only
      have hne2 : ∀ q : FsPath, q ≠ rs → dd ++ q ≠ dd ++ rs := by
        intro q hq hx
        exact hq (List.append_cancel_left hx)
      have := ih (rs :: keys) (rs :: dirs) st2 (i + 1) (j + 1) hwf2
        (List.cons_subset_cons rs hsub)
        (by rw [NoRootKey, hfs2, ← NoRootKey]
            exact NoRootKey_insert st.fs _ _ (by simp [hddne]) hroot)
        (by rw [hfs2, dirExists_insert_ne _ _ _ _
              (by intro hx
                  have hlen := congrArg List.length hx
                  rw [List.length_append] at hlen
                  exact hrsne (List.eq_nil_of_length_eq_zero (by omega)))]
            exact hrootdir)
        (by intro p hp
            rw [List.mem_cons] at hp
            rcases hp with hp | hp
            · subst hp
              rw [hfs2]
              exact dirExists_insert_dir st.fs _ _ _ (by simp [hddne])
            · rw [hfs2, dirExists_insert_ne _ _ _ _
                (hne2 p (fun hx => hnotk (hx ▸ hsub hp)))]
              exact hdirs p hp)
        (by intro q hqne hqk
            rw [List.mem_cons, not_or] at hqk
            rw [hfs2, lookup_insertFS_ne _ _ _ _ (hne2 q hqk.1)]
            exact hfresh q hqne hqk.2)
      refine ⟨this.1, ?_⟩
      rw [this.2, List.foldl_cons, hfs2]
      rfl
    | tfile content m mt =>
      have hE := C3_entry_file C dd rs hdd hddne hrsne hcomps content m mt
        st hfreshE hpdir hroot
      rw [show buildEntry rs (.tfile content m mt) =
        [⟨⟨joinComps rs, content.length, buildMode true m, .reg, mt⟩,
          content⟩] from by rw [buildEntry, if_neg hrsne]]
      rw [List.singleton_append]
      rw [extractLoop.eq_def]
      simp only [hcancel i, Bool.false_eq_true, if_false]
      rcases hEE : extractEntry C (goSep :: joinComps dd)
          (goClean (goAbs C.cwd (goSep :: joinComps dd)) ++ [goSep]) st
          ⟨⟨joinComps rs, content.length, buildMode true m, .reg, mt⟩,
            content⟩ with ⟨st2, oe⟩
      rw [hEE] at hE
      obtain ⟨hoe, hfs2⟩ := hE
      simp only at hoe hfs2
      subst hoe
      simp only
      have hne2 : ∀ q : FsPath, q ≠ rs → dd ++ q ≠ dd ++ rs := by
        intro q hq hx
        exact hq (List.append_cancel_left hx)
      have := ih (rs :: keys) dirs st2 (i + 1) (j + 1) hwf2
        (hsub.trans (List.subset_cons_self rs keys))
        (by rw [NoRootKey, hfs2, ← NoRootKey]
            exact NoRootKey_insert st.fs _ _ (by simp [hddne]) hroot)
        (by rw [hfs2, dirExists_insert_ne _ _ _ _
              (by intro hx
                  have hlen := congrArg List.length hx
                  rw [List.length_append] at hlen
                  exact hrsne (List.eq_nil_of_length_eq_zero (by omega)))]
            exact hrootdir)
        (by intro p hp
            rw [hfs2, dirExists_insert_ne _ _ _ _
              (hne2 p (fun hx => hnotk (hx ▸ hsub hp)))]
            exact hdirs p hp)
        (by intro q hqne hqk
            rw [List.mem_cons, not_or] at hqk
            rw [hfs2, lookup_insertFS_ne _ _ _ _ (hne2 q hqk.1)]
            exact hfresh q hqne hqk.2)
      refine ⟨this.1, ?_⟩
      rw [this.2, List.foldl_cons, hfs2]
      rfl
theorem buildLoop_err_none (c0 : Nat → Bool) (hc0 : ∀ j, c0 j = false) :
    ∀ (ts : TreeList) (j : Nat), (buildLoop c0 j ts).2 = none := by
  intro ts
  induction ts with
  | nil => intro j; rfl
  | cons p rest ih =>
    intro j
    obtain ⟨rs, n⟩ := p
    rw [buildLoop_cons, hc0 j]
    simp only [Bool.false_eq_true, if_false]
    exact ih (j + 1)

theorem WFStep_keys : ∀ (T : TreeList) (keys dirs : List FsPath),
    WFStep keys dirs T = true → ∀ p ∈ T, p.1 ∉ keys := by
  intro T
  induction T with
  | nil => intro keys dirs _ p hp; simp at hp
  | cons q rest ih =>
    intro keys dirs hwf p hp
    obtain ⟨rs, n⟩ := q
    rw [WFStep_cons] at hwf
    simp only [Bool.and_eq_true, Bool.or_eq_true, decide_eq_true_eq] at hwf
    obtain ⟨⟨⟨⟨_, _⟩, hnotk⟩, _⟩, hwf2⟩ := hwf
    rw [List.mem_cons] at hp
    rcases hp with hp | hp
    · rw [hp]
      exact hnotk
    · cases n with
      | tdir a b c =>
        have := ih (rs :: keys) (rs :: dirs) hwf2 p hp
        intro hx
        exact this (by simp [hx])
      | tfile a b c =>
        have := ih (rs :: keys) dirs hwf2 p hp
        intro hx
        exact this (by simp [hx])

theorem lookup_fold_not_mem (dd : List GoStr) :
    ∀ (T : TreeList) (fs : FS) (q : FsPath),
      (∀ p ∈ T, dd ++ p.1 ≠ q) →
      lookupFS
        (T.foldl (fun fs p => insertFS fs (dd ++ p.1) (normNode p.2)) fs)
        q = lookupFS fs q := by
  intro T
  induction T with
  | nil => intro fs q _; rfl
  | cons p rest ih =>
    intro fs q hq
    rw [List.foldl_cons, ih _ q (fun r hr => hq r (by simp [hr]))]
    exact lookup_insertFS_ne _ _ _ _ (fun hx => hq p (by simp) hx.symm)

theorem lookup_fold_mem (dd : List GoStr) :
    ∀ (T : TreeList) (keys dirs : List FsPath) (fs : FS) (rs : FsPath)
      (n : TNode),
      WFStep keys dirs T = true → (rs, n) ∈ T →
      lookupFS
        (T.foldl (fun fs p => insertFS fs (dd ++ p.1) (normNode p.2)) fs)
        (dd ++ rs) = some (normNode n) := by
  intro T
  induction T with
  | nil => intro keys dirs fs rs n _ hmem; simp at hmem
  | cons p rest ih =>
    intro keys dirs fs rs n hwf hmem
    obtain ⟨rs0, n0⟩ := p
    rw [WFStep_cons] at hwf
    simp only [Bool.and_eq_true, Bool.or_eq_true, decide_eq_true_eq] at hwf
    obtain ⟨⟨⟨⟨_, _⟩, _⟩, _⟩, hwf2⟩ := hwf
    rw [List.mem_cons] at hmem
    rcases hmem with hmem | hmem
    · rw [Prod.mk.injEq] at hmem
      obtain ⟨h1, h2⟩ := hmem
      subst h1
      subst h2
      rw [List.foldl_cons]
      cases n with
      | tdir a b c =>
        rw [lookup_fold_not_mem dd rest _ (dd ++ rs)
          (fun p hp hx =>
            (WFStep_keys rest (rs :: keys) (rs :: dirs) hwf2 p hp)
              (by rw [List.append_cancel_left hx]; simp))]
        exact lookup_insertFS_self _ _ _
      | tfile a b c =>
        rw [lookup_fold_not_mem dd rest _ (dd ++ rs)
          (fun p hp hx =>
            (WFStep_keys rest (rs :: keys) dirs hwf2 p hp)
              (by rw [List.append_cancel_left hx]; simp))]
        exact lookup_insertFS_self _ _ _
    · rw [List.foldl_cons]
      cases n0 with
      | tdir a b c => exact ih _ _ _ rs n hwf2 hmem
      | tfile a b c => exact ih _ _ _ rs n hwf2 hmem
/-- C3 (corrected): extract-after-build round trip.  Building a tar
stream from a well-formed walk enumeration of a tree of regular files
and directories and extracting it into a fresh canonical directory
succeeds and reproduces exactly the tree's relative paths, with
contents preserved byte-for-byte and mtimes preserved, but with every
permission mode normalized: masked to the low 9 bits, and all three
execute bits set whenever any one was set (for directories the
normalization applies at extraction time).  No other path under the
extraction root is created. -/
theorem C3_round_trip (C : XCtx) (tree : TreeList) (dd : List GoStr)
    (fs0 : FS)
    (hcancel : ∀ i, C.cancel i = false)
    (hdd : CleanComps dd) (hddne : dd ≠ [])
    (hwf : WFStep [] [] tree = true)
    (hroot : NoRootKey fs0)
    (hrootdir : dirExists fs0 dd = true)
    (hempty : ∀ rs : FsPath, rs ≠ [] → lookupFS fs0 (dd ++ rs) = none) :
    (StreamTarArchive (fun _ => false) tree).2 = none ∧
    (ExtractTarStream C (StreamTarArchive (fun _ => false) tree).1
        (goSep :: joinComps dd) fs0).2 = none ∧
    (ExtractTarStream C (StreamTarArchive (fun _ => false) tree).1
        (goSep :: joinComps dd) fs0).1.fs =
      tree.foldl (fun fs p => insertFS fs (dd ++ p.1) (normNode p.2)) fs0 ∧
    (∀ rs n, (rs, n) ∈ tree →
      lookupFS (ExtractTarStream C (StreamTarArchive (fun _ => false)
          tree).1 (goSep :: joinComps dd) fs0).1.fs (dd ++ rs) =
        some (normNode n)) ∧
    (∀ rs : FsPath, rs ≠ [] → (∀ n : TNode, (rs, n) ∉ tree) →
      lookupFS (ExtractTarStream C (StreamTarArchive (fun _ => false)
          tree).1 (goSep :: joinComps dd) fs0).1.fs (dd ++ rs) =
        lookupFS fs0 (dd ++ rs)) := by
  have hbuild : (StreamTarArchive (fun _ => false) tree).2 = none :=
    buildLoop_err_none (fun _ => false) (fun _ => rfl) tree 0
  have hes : (StreamTarArchive (fun _ => false) tree).1 =
      (buildLoop (fun _ => false) 0 tree).1 := rfl
  have hloop := C3_loop C (fun _ => false) dd hcancel (fun _ => rfl) hdd
    hddne tree [] [] ⟨fs0, [], []⟩ 0 0 hwf (by simp) hroot hrootdir
    (by intro p hp; simp at hp)
    (fun rs hrs _ => hempty rs hrs)
  have hstream : ExtractTarStream C
      (StreamTarArchive (fun _ => false) tree).1 (goSep :: joinComps dd)
      fs0 =
      extractLoop C (goSep :: joinComps dd)
        (goClean (goAbs C.cwd (goSep :: joinComps dd)) ++ [goSep]) 0
        (buildLoop (fun _ => false) 0 tree).1 ⟨fs0, [], []⟩ := by
    rw [hes]
    rfl
  refine ⟨hbuild, ?_, ?_, ?_, ?_⟩
  · rw [hstream]
    exact hloop.1
  · rw [hstream]
    exact hloop.2
  · intro rs n hmem
    rw [hstream]
    show lookupFS (extractLoop C (goSep :: joinComps dd)
        (goClean (goAbs C.cwd (goSep :: joinComps dd)) ++ [goSep]) 0
        (buildLoop (fun _ => false) 0 tree).1 ⟨fs0, [], []⟩).1.fs
        (dd ++ rs) = some (normNode n)
    rw [hloop.2]
    exact lookup_fold_mem dd tree [] [] fs0 rs n hwf hmem
  · intro rs hrs hnot
    rw [hstream]
    show lookupFS (extractLoop C (goSep :: joinComps dd)
        (goClean (goAbs C.cwd (goSep :: joinComps dd)) ++ [goSep]) 0
        (buildLoop (fun _ => false) 0 tree).1 ⟨fs0, [], []⟩).1.fs
        (dd ++ rs) = lookupFS fs0 (dd ++ rs)
    rw [hloop.2]
    exact lookup_fold_not_mem dd tree fs0 (dd ++ rs)
      (fun p hp hx => hnot p.2 (by
        have : p.1 = rs := List.append_cancel_left hx
        rw [← this]
        simpa using hp))

/-- C3 counterexample to verbatim mode preservation: a tree whose only
file has mode `0o700` extracts to a file with mode `0o711`. -/
theorem C3_counterexample :
    lookupFS (ExtractTarStream ⟨fun _ => false, fun _ => true, [goSep], 0, 0⟩
        (StreamTarArchive (fun _ => false)
          [([['f']], .tfile [1] 0o700 0)]).1
        (goSep :: joinComps [['d']])
        [([['d']], .dir 0o755 0)]).1.fs [['d'], ['f']] =
      some (.file [1] 0o711 0) ∧ (0o711 : Nat) ≠ 0o700 := by
  decide

theorem C3_round_trip_witness :
    lookupFS (ExtractTarStream ⟨fun _ => false, fun _ => true, [goSep], 0, 0⟩
        (StreamTarArchive (fun _ => false)
          [([['s']], .tdir 0 0o755 5),
            ([['s'], ['f']], .tfile [9, 8] 0o644 7)]).1
        (goSep :: joinComps [['d']])
        [([['d']], .dir 0o755 0)]).1.fs
      ([['d']] ++ [['s'], ['f']]) =
      some (normNode (.tfile [9, 8] 0o644 7)) := by
  have H := C3_round_trip ⟨fun _ => false, fun _ => true, [goSep], 0, 0⟩
    [([['s']], .tdir 0 0o755 5), ([['s'], ['f']], .tfile [9, 8] 0o644 7)]
    [['d']] [([['d']], .dir 0o755 0)]
    (fun _ => rfl) (by decide) (by decide) (by decide) rfl (by decide)
    (by
      intro rs hrs
      rw [lookupFS, if_neg, lookupFS]
      intro h
      have := congrArg List.length h
      rw [List.length_append] at this
      simp at this
      exact hrs this)
  exact H.2.2.2.1 [['s'], ['f']] (.tfile [9, 8] 0o644 7) (by decide)
